import Mathlib

/-!
Verification of the `redo` undo/redo library (Record, History, Checkpoint,
Queue).  The branching history, the checkpoint wrapper and the queue wrapper
are embedded from `src/history.rs`, `src/checkpoint.rs` and `src/queue.rs`.
The linear record (`record.rs`) is not part of the provided sources; it is
modelled from the specification, as marked on each of its definitions.
-/

deriving instance DecidableEq for Except

namespace Redo

/-- Observer signal, from the `Signal` enum re-exported by the crate
(spec section 6): undo/redo availability, saved flag, and branch switch. -/
inductive Signal where
  | undoS (b : Bool)
  | redoS (b : Bool)
  | savedS (b : Bool)
  | branchS (old new : Nat)
deriving DecidableEq, Repr

/-- A `(branch, current)` coordinate (`At` in the source). -/
structure At where
  branch : Nat
  current : Nat
deriving DecidableEq, Repr

/-- Result of `Command::merge` (`Merged` in the source): `yes c` means the
previous entry absorbed the incoming command producing `c`; `annul` means the
two cancel and both are dropped. -/
inductive Merged (C : Type) where
  | yes (c : C)
  | no
  | annul
deriving DecidableEq, Repr

/-- The client-supplied command contract (spec section 4.1).  Commands carry
mutable state in Rust (`&mut self`), so `applyC` and `undoC` return the
updated command alongside the updated target. -/
structure Ops (C R E : Type) where
  applyC : C → R → Except E (C × R)
  undoC : C → R → Except E (C × R)
  mergeC : C → C → Merged C

/-- Modelled from the spec: the linear record of `record.rs`, which is not in
the provided sources (spec section 4.2).  `entries` is oldest-first, `current`
is the cursor, `limit` the optional capacity, `saved` the saved-marker
position, `slot` whether an observer is connected, and `out` the list of
signals delivered to the observer so far. -/
structure Record (C R : Type) where
  entries : List C
  current : Nat
  limit : Option Nat
  saved : Option Nat
  slot : Bool
  out : List Signal
  target : R
deriving DecidableEq, Repr

variable {C R E : Type}

/-- `Record::can_undo`: the cursor is past at least one entry. -/
def canUndo (r : Record C R) : Bool :=
  r.current != 0

/-- `Record::can_redo`: a redo tail exists. -/
def canRedo (r : Record C R) : Bool :=
  decide (r.current < r.entries.length)

/-- `Record::is_saved`: the saved marker sits at the cursor. -/
def isSaved (r : Record C R) : Bool :=
  r.saved == some r.current

/-- Deliver signals to the observer slot, if one is connected. -/
def emit (r : Record C R) (sigs : List Signal) : Record C R :=
  if r.slot then { r with out := r.out ++ sigs } else r

/-- Modelled from the spec: the record signal protocol (spec section 4.2)
fires `Undo`, `Redo` and `Saved` whenever the corresponding predicate
changed across a state transition. -/
def emitDiff (pre post : Record C R) : List Signal :=
  (if canUndo post != canUndo pre then [Signal.undoS (canUndo post)] else []) ++
    (if canRedo post != canRedo pre then [Signal.redoS (canRedo post)] else []) ++
      (if isSaved post != isSaved pre then [Signal.savedS (isSaved post)] else [])

/-- Apply the state change `r → r1` and deliver the predicate-diff signals. -/
def withDiff (r r1 : Record C R) : Record C R :=
  emit r1 (emitDiff r r1)

/-- Modelled from the spec: the non-merged path of `Record::__apply`
(spec section 4.2, steps 1-5): detach the redo tail, push the new entry,
evict the front entry when the limit is exceeded (shifting or clearing the
saved marker), and clear a saved marker that sat on the detached tail. -/
def recApplyPush (r : Record C R) (c1 : C) (t1 : R) :
    Bool × List C × Record C R :=
  let det := r.entries.drop r.current
  let pushed := r.entries.take r.current ++ [c1]
  let saved0 : Option Nat :=
    match r.saved with
    | some s => if r.current < s then none else some s
    | none => none
  let evict : Bool :=
    match r.limit with
    | some l => decide (l < pushed.length)
    | none => false
  let r1 : Record C R :=
    if evict then
      { r with entries := pushed.drop 1, current := r.current,
               saved := match saved0 with
                 | some (s + 1) => some s
                 | _ => none,
               target := t1 }
    else
      { r with entries := pushed, current := r.current + 1,
               saved := saved0, target := t1 }
  (false, det, withDiff r r1)

/-- Modelled from the spec: `Record::__apply` (spec section 4.2).  Runs the
command; on success, attempts a boundary merge (only when the cursor is at
the end), otherwise pushes.  Returns the merge flag, the detached redo tail,
and the new record.  On a command error the record is unchanged. -/
def recApply (ops : Ops C R E) (r : Record C R) (c : C) :
    Except E (Bool × List C × Record C R) :=
  match ops.applyC c r.target with
  | .error e => .error e
  | .ok (c1, t1) =>
    match (if r.current = r.entries.length then r.entries.getLast? else none) with
    | some prev =>
      match ops.mergeC prev c1 with
      | .yes m =>
        let r1 := { r with entries := r.entries.dropLast ++ [m], target := t1 }
        .ok (true, [], withDiff r r1)
      | .annul =>
        let len1 := r.entries.length - 1
        let r1 := { r with entries := r.entries.dropLast,
                           current := r.current - 1,
                           saved := r.saved.filter (fun s => decide (s ≤ len1)),
                           target := t1 }
        .ok (true, [], withDiff r r1)
      | .no => .ok (recApplyPush r c1 t1)
    | none => .ok (recApplyPush r c1 t1)

/-- Modelled from the spec: `Record::undo` (spec section 4.2).  Uses the
entry below the cursor; on success the cursor moves down and the entry keeps
its updated command state.  Returns `none` when nothing can be undone. -/
def recUndo (ops : Ops C R E) (r : Record C R) :
    Option (Except E (Record C R)) :=
  if r.current = 0 then none
  else
    match r.entries[r.current - 1]? with
    | none => none
    | some e =>
      match ops.undoC e r.target with
      | .error err => some (.error err)
      | .ok (c2, t2) =>
        let r1 := { r with entries := r.entries.set (r.current - 1) c2,
                           current := r.current - 1, target := t2 }
        some (.ok (withDiff r r1))

/-- Modelled from the spec: `Record::redo`, symmetric to `undo` using the
entry at the cursor. -/
def recRedo (ops : Ops C R E) (r : Record C R) :
    Option (Except E (Record C R)) :=
  match r.entries[r.current]? with
  | none => none
  | some e =>
    match ops.applyC e r.target with
    | .error err => some (.error err)
    | .ok (c2, t2) =>
      let r1 := { r with entries := r.entries.set r.current c2,
                         current := r.current + 1, target := t2 }
      some (.ok (withDiff r r1))

/-- Repeated `undo` steps, stopping at the first command error (state so far
is kept).  The `none` outcome marks an undo that was unexpectedly
unavailable, which in Rust would be an `unwrap` panic inside `go_to`. -/
def recUndoSteps (ops : Ops C R E) :
    Nat → Record C R → Record C R × Option (Except E Unit)
  | 0, r => (r, some (.ok ()))
  | n + 1, r =>
    match recUndo ops r with
    | some (.ok r1) => recUndoSteps ops n r1
    | some (.error e) => (r, some (.error e))
    | none => (r, none)

/-- Repeated `redo` steps, symmetric to `recUndoSteps`. -/
def recRedoSteps (ops : Ops C R E) :
    Nat → Record C R → Record C R × Option (Except E Unit)
  | 0, r => (r, some (.ok ()))
  | n + 1, r =>
    match recRedo ops r with
    | some (.ok r1) => recRedoSteps ops n r1
    | some (.error e) => (r, some (.error e))
    | none => (r, none)

/-- Modelled from the spec: `Record::go_to` (spec section 4.2): `none` when
the destination is out of range, otherwise repeated undo or redo toward the
destination, stopping at the first error. -/
def recGoTo (ops : Ops C R E) (r : Record C R) (tc : Nat) :
    Record C R × Option (Except E Unit) :=
  if r.entries.length < tc then (r, none)
  else if tc ≤ r.current then recUndoSteps ops (r.current - tc) r
  else recRedoSteps ops (tc - r.current) r

/-- Modelled from the spec: `Record::set_saved` (spec section 4.2): `true`
records the cursor as saved, `false` clears the marker; signals only on
change. -/
def recSetSaved (r : Record C R) (b : Bool) : Record C R :=
  withDiff r { r with saved := if b then some r.current else none }

/-- Modelled from the spec: `Record::clear` removes all entries without
undoing them; the saved marker survives as position 0 exactly when the
record was saved at the moment of clearing. -/
def recClear (r : Record C R) : Record C R :=
  withDiff r { r with entries := [], current := 0,
                      saved := if isSaved r then some 0 else none }

/-- Modelled from the spec: `Record::set_limit` (spec section 4.2 and the
doc comment of `History::set_limit` in `src/history.rs`): the effective
limit never drops below 1 nor below `len - current`, then the front is
evicted down to the limit, shifting or clearing the saved marker. -/
def recSetLimit (r : Record C R) (l : Nat) : Record C R :=
  let l1 := max (max l 1) (r.entries.length - r.current)
  let d := r.entries.length - min r.entries.length l1
  withDiff r
    { r with entries := r.entries.drop d, current := r.current - d,
             saved := match r.saved with
               | some s => if s < d then none else some (s - d)
               | none => none,
             limit := some l1 }

/-- Modelled from the spec: a fresh record from the builder, with initial
saved flag `sflag` and optional limit (spec section 6). -/
def recordMk (t : R) (sflag : Bool) (lim : Option Nat) : Record C R :=
  { entries := [], current := 0, limit := lim,
    saved := if sflag then some 0 else none,
    slot := false, out := [], target := t }

/-- A branch of the history (`Branch` in `src/history.rs`): the parent
coordinate and the detached entries. -/
structure Branch (C : Type) where
  parent : At
  commands : List C
deriving DecidableEq, Repr

/-- The branching history (`History` in `src/history.rs`).  `branches` models
the `BTreeMap<usize, Branch>` as a key-sorted association list. -/
structure History (C R : Type) where
  root : Nat
  next : Nat
  saved : Option At
  record : Record C R
  branches : List (Nat × Branch C)
deriving DecidableEq, Repr

/-- Lookup in the branch registry. -/
def bLookup (bs : List (Nat × Branch C)) (k : Nat) : Option (Branch C) :=
  match bs with
  | [] => none
  | (k1, b) :: rest => if k = k1 then some b else bLookup rest k

/-- Key-ordered insert (or replace) in the branch registry. -/
def bInsert (k : Nat) (v : Branch C) :
    List (Nat × Branch C) → List (Nat × Branch C)
  | [] => [(k, v)]
  | (k1, b) :: rest =>
    if k < k1 then (k, v) :: (k1, b) :: rest
    else if k = k1 then (k, v) :: rest
    else (k1, b) :: bInsert k v rest

/-- Removal from the branch registry. -/
def bRemove (k : Nat) (bs : List (Nat × Branch C)) : List (Nat × Branch C) :=
  bs.filter (fun p => p.1 != k)

/-- Update every stored branch in place (`values_mut` in the source). -/
def bMap (f : Branch C → Branch C) (bs : List (Nat × Branch C)) :
    List (Nat × Branch C) :=
  bs.map (fun p => (p.1, f p.2))

/-- The re-parenting applied by `History::set_root`: children of `old` whose
parent position is at most `cur` move under `new`. -/
def reparentTo (old new cur : Nat) (b : Branch C) : Branch C :=
  if b.parent.branch = old ∧ b.parent.current ≤ cur then
    { b with parent := { b.parent with branch := new } }
  else b

/-- Shift the parent position of every child of `root` down by `d` (the
bookkeeping after a front eviction, src/history.rs lines 246-252 and
303-309). -/
def shiftParents (root d : Nat) (bs : List (Nat × Branch C)) :
    List (Nat × Branch C) :=
  bMap (fun b =>
    if b.parent.branch == root then
      { b with parent := { b.parent with current := b.parent.current - d } }
    else b) bs

/-- `History::set_root` (src/history.rs lines 456-470): install the new root
and re-parent the affected children of the old root. -/
def setRoot (h : History C R) (root cur : Nat) : History C R :=
  { h with root := root,
           branches := bMap (reparentTo h.root root cur) h.branches }

/-- `History::swap_saved` (src/history.rs lines 472-495): lift a saved marker
of branch `new` at a position at most `cur` into the record, else push the
record's marker out to branch `old`; a `Saved` signal accompanies either
move. -/
def swapSaved (old new cur : Nat) (h : History C R) : History C R :=
  match h.saved.filter
      (fun a => a.branch == new && decide (a.current ≤ cur)) with
  | some a =>
    { h with saved := none,
             record := emit { h.record with saved := some a.current }
               [Signal.savedS true] }
  | none =>
    match h.record.saved with
    | some s =>
      { h with saved := some ⟨old, s⟩,
               record := emit { h.record with saved := none }
                 [Signal.savedS false] }
    | none => h

/-- Worklist loop of `History::rm_child`: remove the dead branches and,
transitively, their children; drop a saved marker living in a dead branch.
The fuel counts registry entries; running out models the unreachable case
where Rust's `unwrap` would panic. -/
def rmChildAux (h : History C R) : Nat → List Nat → History C R
  | _, [] => h
  | 0, _ :: _ => h
  | fuel + 1, p :: rest =>
    let h1 := { h with branches := bRemove p h.branches,
                       saved := h.saved.filter (fun a => a.branch != p) }
    let kids := (h1.branches.filter (fun q => q.2.parent.branch == p)).map (·.1)
    rmChildAux h1 fuel (rest ++ kids)

/-- `History::rm_child` (src/history.rs lines 497-519): remove every branch
whose parent is exactly `(branch, cur)`, and their descendants. -/
def rmChild (h : History C R) (branch cur : Nat) : History C R :=
  let dead := (h.branches.filter
    (fun q => q.2.parent == At.mk branch cur)).map (·.1)
  rmChildAux h h.branches.length dead

/-- The saved-state match of `History::apply` and `History::go_to`
(src/history.rs lines 327-335 and 408-418), on the triple
`(record.saved, filtered pre-apply saved, history.saved)`.  The wildcard arm
is `unreachable!()` in Rust; here it leaves the state unchanged, and the
saved-exclusivity development shows it is never taken from reachable
states. -/
def savedArms (nw old cur : Nat) (savedF : Option Nat) (h : History C R) :
    History C R :=
  match h.record.saved, savedF, h.saved with
  | some _, none, none => swapSaved nw old cur h
  | none, none, some _ => swapSaved nw old cur h
  | none, some s, none =>
    swapSaved old nw cur { h with record := { h.record with saved := some s } }
  | none, none, none => h
  | _, _, _ => h

/-- `History::apply` (src/history.rs lines 294-341): delegate to the record,
handle limit-driven eviction bookkeeping, and relocate a detached redo tail
into a fresh branch. -/
def historyApply (ops : Ops C R E) (c : C) (h : History C R) :
    Except E (History C R) :=
  let cur := h.record.current
  let savedF := h.record.saved.filter (fun s => decide (cur < s))
  match recApply ops h.record c with
  | .error e => .error e
  | .ok (merged, det, r1) =>
    let h1 := { h with record := r1 }
    let h2 :=
      if !merged && r1.current == cur then
        let root := h1.root
        let h1a := rmChild h1 root 0
        { h1a with branches := shiftParents root 1 h1a.branches }
      else h1
    if det.isEmpty then .ok h2
    else
      let old := h2.root
      let nw := h2.next
      let h3 := { h2 with next := nw + 1,
                          branches := bInsert old ⟨⟨nw, cur⟩, det⟩ h2.branches }
      let h4 := setRoot h3 nw cur
      let h5 := savedArms nw old cur savedF h4
      .ok { h5 with record := emit h5.record [Signal.branchS old nw] }

/-- `History::undo` (src/history.rs lines 350-353): delegates to the
record. -/
def historyUndo (ops : Ops C R E) (h : History C R) :
    Option (Except E (History C R)) :=
  match recUndo ops h.record with
  | some (.ok r1) => some (.ok { h with record := r1 })
  | some (.error e) => some (.error e)
  | none => none

/-- `History::redo` (src/history.rs lines 362-365): delegates to the
record. -/
def historyRedo (ops : Ops C R E) (h : History C R) :
    Option (Except E (History C R)) :=
  match recRedo ops h.record with
  | some (.ok r1) => some (.ok { h with record := r1 })
  | some (.error e) => some (.error e)
  | none => none

/-- `History::set_saved` (src/history.rs lines 256-261): set or clear the
record's marker and drop the branch-level marker. -/
def historySetSaved (h : History C R) (b : Bool) : History C R :=
  { h with record := recSetSaved h.record b, saved := none }

/-- `History::clear` (src/history.rs lines 274-286): reset to branch 0 and
emit a `Branch` signal unconditionally. -/
def historyClear (h : History C R) : History C R :=
  let old := h.root
  let h1 := { h with root := 0, next := 1, saved := none,
                     record := recClear h.record, branches := [] }
  { h1 with record := emit h1.record [Signal.branchS old 0] }

/-- `History::set_limit` (src/history.rs lines 237-254): delegate to the
record, prune children of the evicted prefix, and shift the remaining
children of the root. -/
def historySetLimit (h : History C R) (l : Nat) : History C R :=
  let len0 := h.record.entries.length
  let r1 := recSetLimit h.record l
  let d := len0 - r1.entries.length
  let root := h.root
  let h1 := { h with record := r1 }
  let h2 := (List.range d).foldl (fun g cur => rmChild g root cur) h1
  { h2 with branches := shiftParents root d h2.branches }

/-- The parent-walking loop of `History::mk_path` (src/history.rs lines
521-535), accumulating the path root-side first.  Fuel exhaustion or a
missing parent models an `unwrap` panic in Rust. -/
def mkPathAux (root : Nat) :
    Nat → List (Nat × Branch C) → Nat → List (Nat × Branch C) →
      Option (List (Nat × Branch C) × List (Nat × Branch C))
  | fuel, bs, i, path =>
    if i = root then some (bs, path)
    else
      match fuel with
      | 0 => none
      | fuel + 1 =>
        match bLookup bs i with
        | none => none
        | some dest =>
          mkPathAux root fuel (bRemove i bs) dest.parent.branch ((i, dest) :: path)

/-- `History::mk_path`: remove the destination and every branch on the way
to the root from the registry, returning the pruned registry and the path
(root side first).  Returns `none` when the destination branch does not
exist. -/
def mkPath (h : History C R) (to1 : Nat) :
    Option (History C R × List (Nat × Branch C)) :=
  match bLookup h.branches to1 with
  | none => none
  | some dest =>
    match mkPathAux h.root h.branches.length (bRemove to1 h.branches)
        dest.parent.branch [(to1, dest)] with
    | none => none
    | some (bs, path) => some ({ h with branches := bs }, path)

/-- Inner loop of `History::go_to` (src/history.rs lines 388-420): replay the
entries of one path branch, relocating a freshly detached tail into a branch
keyed by the current root, exactly as in `History::apply`. -/
def applyGoEntries (ops : Ops C R E) (nw old : Nat) :
    List C → History C R → History C R × Option E
  | [], h => (h, none)
  | e :: es, h =>
    let cur := h.record.current
    let savedF := h.record.saved.filter (fun s => decide (cur < s))
    match recApply ops h.record e with
    | .error err => (h, some err)
    | .ok (_, det, r1) =>
      let h1 := { h with record := r1 }
      let h2 :=
        if det.isEmpty then h1
        else
          let bs1 := bInsert h1.root ⟨⟨nw, cur⟩, det⟩ h1.branches
          let h1c := setRoot { h1 with branches := bs1 } nw cur
          savedArms nw old cur savedF h1c
      applyGoEntries ops nw old es h2

/-- Outer loop of `History::go_to` (src/history.rs lines 381-421): walk the
path hop by hop; each hop first drives the record to the hop's fork point and
then replays the hop's entries.  A `none` outcome models the `unwrap` panic
on an out-of-range inner `go_to`. -/
def goHops (ops : Ops C R E) :
    List (Nat × Branch C) → History C R → History C R × Option (Except E Unit)
  | [], h => (h, some (.ok ()))
  | (nw, br) :: rest, h =>
    let old := h.root
    match recGoTo ops h.record br.parent.current with
    | (r1, some (.ok _)) =>
      match applyGoEntries ops nw old br.commands { h with record := r1 } with
      | (h2, none) => goHops ops rest h2
      | (h2, some e) => (h2, some (.error e))
    | (r1, some (.error e)) => ({ h with record := r1 }, some (.error e))
    | (r1, none) => ({ h with record := r1 }, none)

/-- `History::go_to` (src/history.rs lines 374-431): delegate to the record
on the active branch, otherwise build the path, walk it, finish on the
destination branch, and emit a `Branch` signal on full success. -/
def historyGoTo (ops : Ops C R E) (h : History C R) (branch cur : Nat) :
    History C R × Option (Except E Unit) :=
  if branch = h.root then
    let p := recGoTo ops h.record cur
    ({ h with record := p.1 }, p.2)
  else
    let root0 := h.root
    match mkPath h branch with
    | none => (h, none)
    | some (h1, path) =>
      match goHops ops path h1 with
      | (h2, some (.ok _)) =>
        match recGoTo ops h2.record cur with
        | (r2, some (.ok _)) =>
          ({ h2 with record := emit r2 [Signal.branchS root0 h2.root] },
            some (.ok ()))
        | (r2, some (.error e)) => ({ h2 with record := r2 }, some (.error e))
        | (r2, none) => ({ h2 with record := r2 }, none)
      | (h2, some (.error e)) => (h2, some (.error e))
      | (h2, none) => (h2, none)

/-- `History::revert` (src/history.rs lines 263-272): revert within the
record when its marker is set, else jump to the branch-level marker. -/
def historyRevert (ops : Ops C R E) (h : History C R) :
    History C R × Option (Except E Unit) :=
  match h.record.saved with
  | some s =>
    let p := recGoTo ops h.record s
    ({ h with record := p.1 }, p.2)
  | none =>
    match h.saved with
    | some a => historyGoTo ops h a.branch a.current
    | none => (h, none)

/-- A fresh history over a fresh record (`History::new` / the builder). -/
def historyMk (t : R) (sflag : Bool) (lim : Option Nat) : History C R :=
  { root := 0, next := 1, saved := none,
    record := recordMk t sflag lim, branches := [] }

/-- One public operation on a history, as a step relation.  Operations whose
command fails leave the state unchanged in the embedding, so only the
state-producing outcomes appear. -/
inductive HStep (ops : Ops C R E) : History C R → History C R → Prop where
  | applyOk (c : C) (h h' : History C R) :
      historyApply ops c h = .ok h' → HStep ops h h'
  | undoOk (h h' : History C R) :
      historyUndo ops h = some (.ok h') → HStep ops h h'
  | redoOk (h h' : History C R) :
      historyRedo ops h = some (.ok h') → HStep ops h h'
  | goTo (b cur : Nat) (h : History C R) :
      HStep ops h (historyGoTo ops h b cur).1
  | setSaved (b : Bool) (h : History C R) :
      HStep ops h (historySetSaved h b)
  | clear (h : History C R) : HStep ops h (historyClear h)
  | revert (h : History C R) : HStep ops h (historyRevert ops h).1
  | setLimit (l : Nat) (h : History C R) : HStep ops h (historySetLimit h l)
  | connect (b : Bool) (h : History C R) :
      HStep ops h { h with record := { h.record with slot := b } }

/-- States of a history reachable from a fresh one by public operations. -/
inductive Reachable (ops : Ops C R E) : History C R → Prop where
  | init (t : R) (sflag : Bool) (lim : Option Nat) :
      Reachable ops (historyMk t sflag lim)
  | step {h h' : History C R} :
      Reachable ops h → HStep ops h h' → Reachable ops h'

/-- At most one of the record-level and branch-level saved markers is set. -/
def SavedExcl (h : History C R) : Prop :=
  h.record.saved = none ∨ h.saved = none

/-- Every stored branch's parent is the root or another stored branch. -/
def ParentsLive (h : History C R) : Bool :=
  h.branches.all
    (fun p => p.2.parent.branch == h.root ||
      (bLookup h.branches p.2.parent.branch).isSome)

/-- One entry of the checkpoint's action log (`Action` in
`src/checkpoint.rs` lines 383-390).  `applyA` stores only the detached redo
tail. -/
inductive CPAction (C : Type) where
  | applyA (v : List C)
  | undoA
  | redoA
  | goToA (b cur : Nat)
deriving DecidableEq, Repr

/-- A checkpoint over a record (`Checkpoint` in `src/checkpoint.rs`). -/
structure CheckpointR (C R : Type) where
  inner : Record C R
  stack : List (CPAction C)
deriving DecidableEq, Repr

/-- `Checkpoint<Record>::apply` (src/checkpoint.rs lines 101-110): run the
record's inner apply and log the detached tail. -/
def cpApply (ops : Ops C R E) (cp : CheckpointR C R) (c : C) :
    Except E (CheckpointR C R) :=
  match recApply ops cp.inner c with
  | .error e => .error e
  | .ok (_, v, r1) => .ok ⟨r1, cp.stack ++ [CPAction.applyA v]⟩

/-- `Checkpoint<Record>::undo` (src/checkpoint.rs lines 112-124): log only a
successful undo. -/
def cpUndo (ops : Ops C R E) (cp : CheckpointR C R) :
    CheckpointR C R × Option (Except E Unit) :=
  match recUndo ops cp.inner with
  | some (.ok r1) => (⟨r1, cp.stack ++ [CPAction.undoA]⟩, some (.ok ()))
  | some (.error e) => (cp, some (.error e))
  | none => (cp, none)

/-- `Checkpoint<Record>::redo` (src/checkpoint.rs lines 126-138). -/
def cpRedo (ops : Ops C R E) (cp : CheckpointR C R) :
    CheckpointR C R × Option (Except E Unit) :=
  match recRedo ops cp.inner with
  | some (.ok r1) => (⟨r1, cp.stack ++ [CPAction.redoA]⟩, some (.ok ()))
  | some (.error e) => (cp, some (.error e))
  | none => (cp, none)

/-- `Checkpoint<Record>::go_to` (src/checkpoint.rs lines 140-153): log the
prior cursor on success. -/
def cpGoTo (ops : Ops C R E) (cp : CheckpointR C R) (cur : Nat) :
    CheckpointR C R × Option (Except E Unit) :=
  let old := cp.inner.current
  match recGoTo ops cp.inner cur with
  | (r1, some (.ok _)) =>
    (⟨r1, cp.stack ++ [CPAction.goToA 0 old]⟩, some (.ok ()))
  | (_, res) => (cp, res)

/-- Rollback loop of `Checkpoint<Record>::cancel` (src/checkpoint.rs lines
172-201), processing the action log last-pushed first.  For a logged apply:
undo the record, truncate its entries to the cursor, and re-append the saved
tail; the saved marker is not touched.  A `None` returned by the inner
undo/redo/go_to falls through (only `Some(Err)` aborts). -/
def cpCancelAux (ops : Ops C R E) :
    List (CPAction C) → Record C R → Except E (Record C R)
  | [], r => .ok r
  | CPAction.applyA v :: rest, r =>
    (match recUndo ops r with
     | some (.error e) => .error e
     | some (.ok r1) =>
       cpCancelAux ops rest
         { r1 with entries := r1.entries.take r1.current ++ v }
     | none =>
       cpCancelAux ops rest
         { r with entries := r.entries.take r.current ++ v })
  | CPAction.undoA :: rest, r =>
    (match recRedo ops r with
     | some (.error e) => .error e
     | some (.ok r1) => cpCancelAux ops rest r1
     | none => cpCancelAux ops rest r)
  | CPAction.redoA :: rest, r =>
    (match recUndo ops r with
     | some (.error e) => .error e
     | some (.ok r1) => cpCancelAux ops rest r1
     | none => cpCancelAux ops rest r)
  | CPAction.goToA _ cur :: rest, r =>
    (match recGoTo ops r cur with
     | (_, some (.error e)) => .error e
     | (r1, _) => cpCancelAux ops rest r1)

/-- `Checkpoint<Record>::cancel`: walk the action log in reverse. -/
def cpCancel (ops : Ops C R E) (cp : CheckpointR C R) :
    Except E (Record C R) :=
  cpCancelAux ops cp.stack.reverse cp.inner

/-- One queued intent (`Action` in `src/queue.rs` lines 272-279). -/
inductive QAction (C : Type) where
  | applyQ (c : C)
  | undoQ
  | redoQ
  | goToQ (b cur : Nat)
deriving DecidableEq, Repr

/-- A queue over an arbitrary timeline state `σ` (`Queue` in
`src/queue.rs`). -/
structure Queue (σ C : Type) where
  inner : σ
  actions : List (QAction C)
deriving DecidableEq, Repr

/-- `Queue::apply` (src/queue.rs lines 86-90): record the intent only. -/
def queueApply (q : Queue σ C) (c : C) : Queue σ C :=
  { q with actions := q.actions ++ [QAction.applyQ c] }

/-- `Queue::undo` (src/queue.rs lines 92-96). -/
def queueUndo (q : Queue σ C) : Queue σ C :=
  { q with actions := q.actions ++ [QAction.undoQ] }

/-- `Queue::redo` (src/queue.rs lines 98-102). -/
def queueRedo (q : Queue σ C) : Queue σ C :=
  { q with actions := q.actions ++ [QAction.redoQ] }

/-- `Queue::go_to` (src/queue.rs lines 118-122 and 181-185). -/
def queueGoTo (q : Queue σ C) (b cur : Nat) : Queue σ C :=
  { q with actions := q.actions ++ [QAction.goToQ b cur] }

/-- `Queue::cancel` (src/queue.rs line 114): drop the intent list. -/
def queueCancel (q : Queue σ C) : σ :=
  q.inner

/-- The timeline interface a queue commits against (the `Timeline` trait):
apply may fail with an error, undo/redo/go_to report `none` (nothing to do),
success, or a command error. -/
structure TLOps (σ C E : Type) where
  applyT : C → σ → σ × Option E
  undoT : σ → σ × Option (Except E Unit)
  redoT : σ → σ × Option (Except E Unit)
  goT : Nat → Nat → σ → σ × Option (Except E Unit)

/-- One step of `Queue::commit` (src/queue.rs lines 130-148 and 193-211):
only an `Err` from the underlying operation stops the commit; a `None`
(nothing to undo/redo) falls through. -/
def stepQ (tl : TLOps σ C E) : QAction C → σ → σ × Option E
  | .applyQ c, s => tl.applyT c s
  | .undoQ, s =>
    (match tl.undoT s with
     | (s1, some (.error e)) => (s1, some e)
     | (s1, _) => (s1, none))
  | .redoQ, s =>
    (match tl.redoT s with
     | (s1, some (.error e)) => (s1, some e)
     | (s1, _) => (s1, none))
  | .goToQ b cur, s =>
    (match tl.goT b cur s with
     | (s1, some (.error e)) => (s1, some e)
     | (s1, _) => (s1, none))

/-- The loop of `Queue::commit`: execute in enqueue order, stop at the first
error. -/
def runQ (tl : TLOps σ C E) : List (QAction C) → σ → σ × Option E
  | [], s => (s, none)
  | a :: rest, s =>
    match stepQ tl a s with
    | (s1, some e) => (s1, some e)
    | (s1, none) => runQ tl rest s1

/-- `Queue::commit` (src/queue.rs lines 124-151 for records and 187-214 for
histories, which are textually identical up to the timeline). -/
def queueCommit (tl : TLOps σ C E) (q : Queue σ C) : σ × Option E :=
  runQ tl q.actions q.inner

/-- The history instantiation of the timeline interface. -/
def historyTL (ops : Ops C R E) : TLOps (History C R) C E where
  applyT := fun c h =>
    match historyApply ops c h with
    | .ok h1 => (h1, none)
    | .error e => (h, some e)
  undoT := fun h =>
    match historyUndo ops h with
    | some (.ok h1) => (h1, some (.ok ()))
    | some (.error e) => (h, some (.error e))
    | none => (h, none)
  redoT := fun h =>
    match historyRedo ops h with
    | some (.ok h1) => (h1, some (.ok ()))
    | some (.error e) => (h, some (.error e))
    | none => (h, none)
  goT := fun b cur h => historyGoTo ops h b cur

/-- One enqueue-only operation on a queue (spec section 4.5). -/
inductive EnqOp (C : Type) where
  | eApply (c : C)
  | eUndo
  | eRedo
  | eGoTo (b cur : Nat)
deriving DecidableEq, Repr

/-- Perform one enqueue operation. -/
def enqueue (q : Queue σ C) : EnqOp C → Queue σ C
  | .eApply c => queueApply q c
  | .eUndo => queueUndo q
  | .eRedo => queueRedo q
  | .eGoTo b cur => queueGoTo q b cur

/-- Perform a whole sequence of enqueue operations. -/
def enqueueAll (q : Queue σ C) (l : List (EnqOp C)) : Queue σ C :=
  l.foldl enqueue q

/-- A command type whose `undo` restores the target to its pre-apply state
(spec section 4.1). -/
def InverseOps (ops : Ops C R E) : Prop :=
  ∀ c t c1 t1, ops.applyC c t = .ok (c1, t1) →
    ∃ c2, ops.undoC c1 t1 = .ok (c2, t)

/-- A command type that never merges (`merge` always returns `No`, the
default per spec section 4.1). -/
def NeverMerges (ops : Ops C R E) : Prop :=
  ∀ a b, ops.mergeC a b = Merged.no

/-- Basic cursor well-formedness of a record. -/
def WFcur (r : Record C R) : Prop :=
  r.current ≤ r.entries.length

/-- The limit is respected. -/
def WFlim (r : Record C R) : Prop :=
  ∀ l, r.limit = some l → r.entries.length ≤ l

/-- The applied part of the record, most recent entry first. -/
def stackOf (r : Record C R) : List C :=
  (r.entries.take r.current).reverse

/-- The fields of a record that determine undo behaviour on the target:
entries, cursor and target (the saved marker and signal log do not). -/
def recCore (r : Record C R) : List C × Nat × R :=
  (r.entries, r.current, r.target)

/-- Undo a stack of command states against a target, failing when the stack
is exhausted or a command's undo errors. -/
def chainUndo (ops : Ops C R E) : Nat → List C → R → Option R
  | 0, _, t => some t
  | _ + 1, [], _ => none
  | n + 1, c :: s, t =>
    match ops.undoC c t with
    | .ok p => chainUndo ops n s p.2
    | .error _ => none

/-- Run a list of commands through `Record::apply`, all succeeding. -/
def applyListR (ops : Ops C R E) : List C → Record C R → Except E (Record C R)
  | [], r => .ok r
  | c :: cs, r =>
    match recApply ops r c with
    | .error e => .error e
    | .ok (_, _, r1) => applyListR ops cs r1

/-- Run `n` undos through `Record::undo`, all returning `Some(Ok)`. -/
def undoOkR (ops : Ops C R E) : Nat → Record C R → Option (Record C R)
  | 0, r => some r
  | n + 1, r =>
    match recUndo ops r with
    | some (.ok r1) => undoOkR ops n r1
    | _ => none

/-- Run a list of commands through `History::apply`, all succeeding. -/
def applyListH (ops : Ops C R E) :
    List C → History C R → Except E (History C R)
  | [], h => .ok h
  | c :: cs, h =>
    match historyApply ops c h with
    | .error e => .error e
    | .ok h1 => applyListH ops cs h1

/-- Run `n` undos through `History::undo`, all returning `Some(Ok)`. -/
def undoOkH (ops : Ops C R E) : Nat → History C R → Option (History C R)
  | 0, h => some h
  | n + 1, h =>
    match historyUndo ops h with
    | some (.ok h1) => undoOkH ops n h1
    | _ => none

/-- `History::apply` with the result projected to an `Option`. -/
def hApplyOk (ops : Ops C R E) (c : C) (h : History C R) :
    Option (History C R) :=
  match historyApply ops c h with
  | .ok h1 => some h1
  | .error _ => none

/-- `History::undo` with the result projected to an `Option`. -/
def hUndoOk (ops : Ops C R E) (h : History C R) : Option (History C R) :=
  match historyUndo ops h with
  | some (.ok h1) => some h1
  | _ => none

/-- `Record::apply` with the result projected to an `Option`. -/
def recApplyOk (ops : Ops C R E) (c : C) (r : Record C R) :
    Option (Record C R) :=
  match recApply ops r c with
  | .ok (_, _, r1) => some r1
  | .error _ => none

/-- `Record::undo` with the result projected to an `Option`. -/
def recUndoOk (ops : Ops C R E) (r : Record C R) : Option (Record C R) :=
  match recUndo ops r with
  | some (.ok r1) => some r1
  | _ => none

/-- Additive commands over `Fin 64`: `apply` adds, `undo` subtracts (so undo
always restores the pre-apply state), and a command merges into its
predecessor exactly when its value is even (the combined command adds the
sum, so its undo reverses the combined effect). -/
def ops64 : Ops (Fin 64) (Fin 64) Unit where
  applyC := fun k t => .ok (k, t + k)
  undoC := fun k t => .ok (k, t - k)
  mergeC := fun a b => if b.val % 2 = 0 then .yes (a + b) else .no

/-- Simple list-push commands: `apply n` pushes `n`, `undo` pops; no
merging. -/
def pushOps : Ops Nat (List Nat) Nat where
  applyC := fun n t => .ok (n, n :: t)
  undoC := fun n t =>
    match t with
    | [] => .error 0
    | _ :: ts => .ok (n, ts)
  mergeC := fun _ _ => .no

/-- Stateful commands with a one-shot failure mode: a command is a pair
`(id, armed)`; `apply` errors when armed, and a successful apply of id 9
arms the command (so replaying it from a stored branch fails); `undo`
pops and keeps the armed flag. -/
def bombOps : Ops (Nat × Bool) (List Nat) Nat where
  applyC := fun c t => if c.2 then .error 1 else .ok ((c.1, c.1 == 9), c.1 :: t)
  undoC := fun c t =>
    match t with
    | [] => .error 2
    | _ :: ts => .ok (c, ts)
  mergeC := fun _ _ => .no

/-- C1 scenario, setup: a fresh history after applying 2 and 3 (3 is odd, so
it does not merge); its target is 5. -/
def c1pre : Option (History (Fin 64) (Fin 64)) :=
  (hApplyOk ops64 2 (historyMk 0 false none)).bind (hApplyOk ops64 3)

/-- C1 scenario, window: two further applies (4 and 6, both of which merge
into the previous entry) followed by two undos, all successful. -/
def c1post : Option (History (Fin 64) (Fin 64)) :=
  ((((c1pre.bind (hApplyOk ops64 4)).bind (hApplyOk ops64 6)).bind
    (hUndoOk ops64)).bind (hUndoOk ops64))

/-- C3 scenario: record that applied one command, marked saved, and undid
it, so the saved marker (position 1) sits on the redo tail. -/
def c3r3 : Option (Record Nat (List Nat)) :=
  ((recApplyOk pushOps 1 (recordMk [] false none)).map
    (recSetSaved · true)).bind (recUndoOk pushOps)

/-- C3 scenario: checkpoint over `c3r3`, apply a diverging command (clearing
the tail saved marker), then cancel. -/
def c3res : Option (Record Nat (List Nat)) :=
  (c3r3.bind (fun r =>
    match cpApply pushOps ⟨r, []⟩ 2 with
    | .ok cp1 => some cp1
    | .error _ => none)).bind (fun cp =>
      match cpCancel pushOps cp with
      | .ok r => some r
      | .error _ => none)

/-- C7 scenario: a history whose tree is a chain `2 → 1 → 0` with an extra
branch 3 hanging off branch 0, and an armed (failing) command stored in
branch 1. -/
def h7pre : History (Nat × Bool) (List Nat) where
  root := 2
  next := 4
  saved := none
  record :=
    { entries := [(5, false), (6, false)], current := 2, limit := none,
      saved := none, slot := false, out := [], target := [6, 5] }
  branches :=
    [(0, ⟨⟨1, 2⟩, [(8, false)]⟩),
     (1, ⟨⟨2, 1⟩, [(9, true), (7, false)]⟩),
     (3, ⟨⟨0, 3⟩, [(4, false)]⟩)]

/-- C8 scenario: a fresh saved history, on branch 0, with an observer
connected. -/
def h8 : History Nat (List Nat) where
  root := 0
  next := 1
  saved := none
  record :=
    { entries := [], current := 0, limit := none, saved := some 0,
      slot := true, out := [], target := [] }
  branches := []

/-- C9 witness scenario: a history with exactly one stored branch, id 1. -/
def h9 : History Nat (List Nat) where
  root := 0
  next := 2
  saved := none
  record :=
    { entries := [1], current := 1, limit := none, saved := none,
      slot := false, out := [], target := [1] }
  branches := [(1, ⟨⟨0, 0⟩, [2]⟩)]

/-- C2 witness scenario: a history with two entries and the cursor after the
first, so the next apply detaches a one-entry tail. -/
def h2w : History Nat (List Nat) where
  root := 0
  next := 1
  saved := none
  record :=
    { entries := [1, 2], current := 1, limit := none, saved := none,
      slot := false, out := [], target := [1] }
  branches := []

/-- C2 witness scenario: the expected record after applying 3 to `h2w`. -/
def r2w1 : Record Nat (List Nat) :=
  ⟨[1, 3], 2, none, none, false, [], [3, 1]⟩

/-- C2 witness scenario: the expected history after applying 3 to `h2w`. -/
def h2w1 : History Nat (List Nat) :=
  ⟨1, 2, none, r2w1, [(0, ⟨⟨1, 1⟩, [2]⟩)]⟩

/-- C6 witness scenario: the history after the first queued apply. -/
def h6mid : History (Nat × Bool) (List Nat) where
  root := 0
  next := 1
  saved := none
  record :=
    { entries := [(1, false)], current := 1, limit := none, saved := none,
      slot := false, out := [], target := [1] }
  branches := []

theorem emit_entries (r : Record C R) (sigs : List Signal) :
    (emit r sigs).entries = r.entries := by
  unfold emit; split <;> rfl

theorem emit_current (r : Record C R) (sigs : List Signal) :
    (emit r sigs).current = r.current := by
  unfold emit; split <;> rfl

theorem emit_saved (r : Record C R) (sigs : List Signal) :
    (emit r sigs).saved = r.saved := by
  unfold emit; split <;> rfl

theorem emit_target (r : Record C R) (sigs : List Signal) :
    (emit r sigs).target = r.target := by
  unfold emit; split <;> rfl

theorem emit_limit (r : Record C R) (sigs : List Signal) :
    (emit r sigs).limit = r.limit := by
  unfold emit; split <;> rfl

theorem emit_slot (r : Record C R) (sigs : List Signal) :
    (emit r sigs).slot = r.slot := by
  unfold emit; split <;> rfl

theorem withDiff_entries (r r1 : Record C R) :
    (withDiff r r1).entries = r1.entries := emit_entries r1 _

theorem withDiff_current (r r1 : Record C R) :
    (withDiff r r1).current = r1.current := emit_current r1 _

theorem withDiff_saved (r r1 : Record C R) :
    (withDiff r r1).saved = r1.saved := emit_saved r1 _

theorem withDiff_target (r r1 : Record C R) :
    (withDiff r r1).target = r1.target := emit_target r1 _

theorem withDiff_limit (r r1 : Record C R) :
    (withDiff r r1).limit = r1.limit := emit_limit r1 _

theorem withDiff_slot (r r1 : Record C R) :
    (withDiff r r1).slot = r1.slot := emit_slot r1 _

theorem swapSaved_root (o n c1 : Nat) (h : History C R) :
    (swapSaved o n c1 h).root = h.root := by
  unfold swapSaved
  split
  · rfl
  · split <;> rfl

theorem swapSaved_next (o n c1 : Nat) (h : History C R) :
    (swapSaved o n c1 h).next = h.next := by
  unfold swapSaved
  split
  · rfl
  · split <;> rfl

theorem swapSaved_branches (o n c1 : Nat) (h : History C R) :
    (swapSaved o n c1 h).branches = h.branches := by
  unfold swapSaved
  split
  · rfl
  · split <;> rfl

theorem savedArms_root (nw old cur : Nat) (f : Option Nat) (h : History C R) :
    (savedArms nw old cur f h).root = h.root := by
  unfold savedArms
  split <;> simp [swapSaved_root]

theorem savedArms_next (nw old cur : Nat) (f : Option Nat) (h : History C R) :
    (savedArms nw old cur f h).next = h.next := by
  unfold savedArms
  split <;> simp [swapSaved_next]

theorem savedArms_branches (nw old cur : Nat) (f : Option Nat)
    (h : History C R) :
    (savedArms nw old cur f h).branches = h.branches := by
  unfold savedArms
  split <;> simp [swapSaved_branches]

theorem bLookup_bInsert_self (k : Nat) (v : Branch C)
    (bs : List (Nat × Branch C)) : bLookup (bInsert k v bs) k = some v := by
  induction bs with
  | nil => simp [bInsert, bLookup]
  | cons p rest ih =>
    unfold bInsert
    by_cases h1 : k < p.1
    · simp [h1, bLookup]
    · by_cases h2 : k = p.1
      · simp [h1, h2, bLookup]
      · simp [h1, h2, bLookup, ih]

theorem bLookup_bMap (f : Branch C → Branch C) (bs : List (Nat × Branch C))
    (k : Nat) : bLookup (bMap f bs) k = (bLookup bs k).map f := by
  induction bs with
  | nil => rfl
  | cons p rest ih =>
    show bLookup ((p.1, f p.2) :: bMap f rest) k = (bLookup (p :: rest) k).map f
    unfold bLookup
    by_cases h1 : k = p.1
    · simp [h1]
    · simp [h1, ih]

/-- C1, counterexample: `ops64` is a command type whose undo always restores
the pre-apply target, yet on a history holding target 5 two successful
applies (4 and 6, which merge into the previous entry) followed by two
successful undos leave the target at 0, not 5. -/
theorem C1_counterexample :
    (∀ k t : Fin 64, ops64.applyC k t = .ok (k, t + k) ∧
      ops64.undoC k (t + k) = .ok (k, t)) ∧
    (c1pre.map (fun h => h.record.target)) = some 5 ∧
    (c1post.map (fun h => h.record.target)) = some 0 ∧
    (5 : Fin 64) ≠ 0 := by
  refine ⟨fun k t => ⟨rfl, ?_⟩, by decide, by decide, by decide⟩
  show Except.ok (k, t + k - k) = Except.ok (k, t)
  rw [add_sub_cancel_right]

/-- C3, evaluation at the failing input: after apply, set_saved, undo, the
record's saved marker is `some 1`; a checkpoint apply followed by cancel
restores the entries, cursor and target exactly but leaves the saved marker
`none` instead of restoring `some 1`. -/
theorem C3_checkpoint_cancel_drops_saved :
    (c3r3.map (fun r => r.saved)) = some (some 1) ∧
    (c3res.map (fun r => (r.saved, r.entries, r.current, r.target))) =
      some (none, [1], 0, []) ∧
    (c3res.map (fun r => r.saved)) ≠ (c3r3.map (fun r => r.saved)) := by
  decide

/-- C5: enqueueing any sequence of apply/undo/redo/go_to intents leaves the
underlying timeline untouched, and `cancel` returns it unchanged. -/
theorem C5_queue_deferred :
    ∀ (l : List (EnqOp C)) (q : Queue σ C),
      (enqueueAll q l).inner = q.inner ∧
        queueCancel (enqueueAll q l) = q.inner := by
  intro l
  induction l with
  | nil => intro q; exact ⟨rfl, rfl⟩
  | cons a rest ih =>
    intro q
    have h1 : enqueueAll q (a :: rest) = enqueueAll (enqueue q a) rest := rfl
    have h2 : (enqueue q a).inner = q.inner := by cases a <;> rfl
    constructor
    · rw [h1, (ih (enqueue q a)).1, h2]
    · show (enqueueAll q (a :: rest)).inner = q.inner
      rw [h1, (ih (enqueue q a)).1, h2]

/-- C6: `Queue::commit` executes the queued actions in order; when the
actions split as `l1 ++ a :: l2` with `l1` succeeding and `a` failing with
`e`, commit returns exactly `e` with the state reached at `a`, and the
remaining actions `l2` are never executed. -/
theorem C6_commit_stops_at_first_error (tl : TLOps σ C E) (s s1 s2 : σ)
    (l1 l2 : List (QAction C)) (a : QAction C) (e : E)
    (h1 : runQ tl l1 s = (s1, none)) (h2 : stepQ tl a s1 = (s2, some e)) :
    queueCommit tl ⟨s, l1 ++ a :: l2⟩ = (s2, some e) := by
  show runQ tl (l1 ++ a :: l2) s = (s2, some e)
  induction l1 generalizing s with
  | nil =>
    have hs : s = s1 := by
      have : (s, (none : Option E)) = (s1, none) := h1
      exact (Prod.mk.injEq _ _ _ _).mp this |>.1
    subst hs
    show runQ tl (a :: l2) s = (s2, some e)
    unfold runQ
    rw [h2]
  | cons b rest ih =>
    rcases hb : stepQ tl b s with ⟨sb, ob⟩
    cases ob with
    | some eb =>
      exfalso
      unfold runQ at h1
      rw [hb] at h1
      exact Option.noConfusion ((Prod.mk.injEq _ _ _ _).mp h1).2
    | none =>
      unfold runQ at h1
      rw [hb] at h1
      show runQ tl (b :: (rest ++ a :: l2)) s = (s2, some e)
      unfold runQ
      rw [hb]
      exact ih sb h1

/-- C6, witness: committing `[apply plain, apply armed-bomb, apply plain]`
on a fresh history stops at the bomb, returns its error, and the third
apply never runs. -/
theorem C6_commit_stops_at_first_error_witness :
    queueCommit (historyTL bombOps)
      ⟨historyMk [] false none,
        [QAction.applyQ (1, false), QAction.applyQ (9, true),
          QAction.applyQ (2, false)]⟩ = (h6mid, some 1) :=
  C6_commit_stops_at_first_error (historyTL bombOps) (historyMk [] false none)
    h6mid h6mid [QAction.applyQ (1, false)] [QAction.applyQ (2, false)]
    (QAction.applyQ (9, true)) 1 (by decide) (by decide)

/-- C7, counterexample: a history satisfying the tree invariants
(parent-reachability, saved exclusivity, cursor bounds) on which a
cross-branch `go_to` fails mid-walk with a command error; the error is
surfaced and the target reflects the furthest successful step, but the
resulting branch registry contains a branch (id 3) whose parent (id 0) is
neither the root nor stored: the un-walked path branches were discarded. -/
theorem C7_counterexample :
    ParentsLive h7pre = true ∧ SavedExcl h7pre ∧ WFcur h7pre.record ∧
    (historyGoTo bombOps h7pre 0 3).2 = some (.error 1) ∧
    (historyGoTo bombOps h7pre 0 3).1.record.target = [5] ∧
    ParentsLive (historyGoTo bombOps h7pre 0 3).1 = false := by
  refine ⟨by decide, Or.inl rfl, ?_, by decide, by decide, by decide⟩
  unfold WFcur
  decide

/-- C8, counterexample: clearing a history that is already on branch 0
delivers `Branch{old: 0, new: 0}` to the connected observer even though the
active branch did not change. -/
theorem C8_counterexample :
    h8.root = 0 ∧ (historyClear h8).root = 0 ∧ h8.record.out = [] ∧
    (historyClear h8).record.out = [Signal.branchS 0 0] := by
  decide

/-- C9: cross-branch `go_to` to a branch id that is neither the root nor a
registry key returns `none` and leaves the history (target, record, root,
next, saved markers, registry, signal log) completely unchanged. -/
theorem C9_goto_unknown_branch_noop (ops : Ops C R E) (h : History C R)
    (b cur : Nat) (hb : b ≠ h.root) (hnone : bLookup h.branches b = none) :
    historyGoTo ops h b cur = (h, none) := by
  unfold historyGoTo
  rw [if_neg hb]
  unfold mkPath
  rw [hnone]

/-- C9, witness: on a concrete history with registry `{1}` and root 0,
`go_to(7, 0)` is a no-op returning `none`. -/
theorem C9_goto_unknown_branch_noop_witness :
    historyGoTo pushOps h9 7 0 = (h9, none) :=
  C9_goto_unknown_branch_noop pushOps h9 7 0 (by decide) (by decide)

/-- C10: `History::set_saved(b)` always clears the branch-level saved
marker, for both `b = true` and `b = false`; the record-level marker is set
to the cursor or cleared according to `b`. -/
theorem C10_set_saved_clears_branch_marker (h : History C R) (b : Bool) :
    (historySetSaved h b).saved = none ∧
    (historySetSaved h b).record.saved =
      (if b then some h.record.current else none) := by
  refine ⟨rfl, ?_⟩
  show (recSetSaved h.record b).saved = _
  unfold recSetSaved
  rw [withDiff_saved]

/-- C8, amended: a `Saved` signal from `History::swap_saved` is delivered
only when the saved-marker pair `(record.saved, history.saved)` actually
changed; `History::clear`, however, always delivers a `Branch` signal to a
connected observer, even when the active branch is already 0. -/
theorem C8_signals_amended :
    (∀ (o n cur : Nat) (h : History C R),
        (swapSaved o n cur h).record.out ≠ h.record.out →
          (swapSaved o n cur h).record.saved ≠ h.record.saved ∨
            (swapSaved o n cur h).saved ≠ h.saved) ∧
    (∀ g : History C R, g.record.slot = true →
        Signal.branchS g.root 0 ∈ (historyClear g).record.out) := by
  constructor
  · intro o n cur h hout
    cases hs : h.saved with
    | none =>
      cases hrs : h.record.saved with
      | some s =>
        left
        simp [swapSaved, hs, hrs, emit_saved, Option.filter]
      | none =>
        exact absurd (by simp [swapSaved, hs, hrs, Option.filter]) hout
    | some a =>
      by_cases hp : (a.branch == n && decide (a.current ≤ cur)) = true
      · right
        simp [swapSaved, hs, hp, Option.filter]
      · cases hrs : h.record.saved with
        | some s =>
          left
          simp [swapSaved, hs, hp, hrs, emit_saved, Option.filter]
        | none =>
          exact absurd (by simp [swapSaved, hs, hp, hrs, Option.filter]) hout
  · intro g hg
    have hslot : (recClear g.record).slot = true := by
      unfold recClear
      rw [withDiff_slot]
      exact hg
    show Signal.branchS g.root 0 ∈ (emit (recClear g.record) _).out
    unfold emit
    rw [hslot]
    simp

/-- C8, witness: on `h8` (record marker set, observer connected) a
`swap_saved` call that emits does change the saved pair, and `clear`
delivers a `Branch` signal. -/
theorem C8_signals_amended_witness :
    ((swapSaved 1 0 0 h8).record.saved ≠ h8.record.saved ∨
      (swapSaved 1 0 0 h8).saved ≠ h8.saved) ∧
    Signal.branchS h8.root 0 ∈ (historyClear h8).record.out :=
  ⟨C8_signals_amended.1 1 0 0 h8 (by decide), C8_signals_amended.2 h8 rfl⟩

theorem recApplyPush_char (r : Record C R) (c1 : C) (t1 : R)
    (m : Bool) (det : List C) (r1 : Record C R)
    (hwfc : WFcur r) (hwfl : WFlim r)
    (heq : recApplyPush r c1 t1 = (m, det, r1)) (hdet : det ≠ []) :
    m = false ∧ r1.current = r.current + 1 := by
  simp only [recApplyPush] at heq
  injection heq with hm h2
  injection h2 with hd hr1
  subst hm hd hr1
  refine ⟨rfl, ?_⟩
  have hcur : r.current < r.entries.length := by
    by_contra hle
    exact hdet (List.drop_eq_nil_of_le (Nat.le_of_not_lt hle))
  have hlen : (r.entries.take r.current ++ [c1]).length = r.current + 1 := by
    simp [List.length_take, Nat.min_eq_left hwfc]
  have hev : (match r.limit with
      | some l => decide (l < (r.entries.take r.current ++ [c1]).length)
      | none => false) = false := by
    cases hl : r.limit with
    | none => rfl
    | some l =>
      have h1 : r.entries.length ≤ l := hwfl l hl
      simp only [hlen]
      simp only [decide_eq_false_iff_not]
      omega
  rw [hev]
  simp [withDiff_current]

theorem recApply_detach_char (ops : Ops C R E) (r : Record C R) (c : C)
    (m : Bool) (det : List C) (r1 : Record C R)
    (hwfc : WFcur r) (hwfl : WFlim r)
    (hok : recApply ops r c = .ok (m, det, r1)) (hdet : det ≠ []) :
    m = false ∧ r1.current = r.current + 1 := by
  unfold recApply at hok
  split at hok
  · exact absurd hok (by simp)
  · split at hok
    · split at hok
      · injection hok with hp
        injection hp with hm h2
        injection h2 with hd hr1
        exact absurd hd.symm hdet
      · injection hok with hp
        injection hp with hm h2
        injection h2 with hd hr1
        exact absurd hd.symm hdet
      · injection hok with hp
        exact recApplyPush_char r _ _ m det r1 hwfc hwfl hp hdet
    · injection hok with hp
      exact recApplyPush_char r _ _ m det r1 hwfc hwfl hp hdet

/-- C2: when `History::apply` detaches a non-empty tail, the result has a
fresh root allocated from `next`, `next` incremented, the detached tail
stored under the previous root with parent `(new, pre-apply current)`, and
the previous root's children re-parented exactly when their parent position
is at most the pre-apply current; the stored tail itself is not
re-parented. -/
theorem C2_apply_divergence_branching (ops : Ops C R E) (c : C)
    (h h' : History C R) (m : Bool) (det : List C) (r1 : Record C R)
    (hwfc : WFcur h.record) (hwfl : WFlim h.record)
    (hrec : recApply ops h.record c = .ok (m, det, r1)) (hdet : det ≠ [])
    (hne : h.root ≠ h.next) (hres : historyApply ops c h = .ok h') :
    h'.root = h.next ∧ h'.next = h.next + 1 ∧
    h'.branches = bMap (reparentTo h.root h.next h.record.current)
      (bInsert h.root ⟨⟨h.next, h.record.current⟩, det⟩ h.branches) ∧
    bLookup h'.branches h.root =
      some ⟨⟨h.next, h.record.current⟩, det⟩ := by
  obtain ⟨hm, hcur1⟩ :=
    recApply_detach_char ops h.record c m det r1 hwfc hwfl hrec hdet
  subst hm
  unfold historyApply at hres
  rw [hrec] at hres
  have hbeq : (r1.current == h.record.current) = false := by
    simp [hcur1]
  have hc2 : det.isEmpty = false := by
    cases det with
    | nil => exact absurd rfl hdet
    | cons a l => rfl
  simp only [hbeq, hc2, Bool.not_false, Bool.true_and, Bool.false_eq_true,
    if_false, Except.ok.injEq] at hres
  subst hres
  refine ⟨?_, ?_, ?_, ?_⟩
  · simp only [savedArms_root, setRoot]
  · simp only [savedArms_next, setRoot]
  · simp only [savedArms_branches, setRoot]
  · simp only [savedArms_branches, setRoot]
    rw [bLookup_bMap, bLookup_bInsert_self]
    show some (reparentTo h.root h.next h.record.current
      ⟨⟨h.next, h.record.current⟩, det⟩) = _
    unfold reparentTo
    rw [if_neg]
    intro hcontra
    exact hne hcontra.1.symm

/-- C2, witness: applying 3 to `h2w` (cursor 1 of 2) detaches `[2]`, makes
branch 1 the root, stores the tail under the old root 0 with parent
`(1, 1)`, and re-parents nothing else. -/
theorem C2_apply_divergence_branching_witness :
    h2w1.root = h2w.next ∧ h2w1.next = h2w.next + 1 ∧
    h2w1.branches = bMap (reparentTo h2w.root h2w.next h2w.record.current)
      (bInsert h2w.root ⟨⟨h2w.next, h2w.record.current⟩, [2]⟩ h2w.branches) ∧
    bLookup h2w1.branches h2w.root =
      some ⟨⟨h2w.next, h2w.record.current⟩, [2]⟩ :=
  C2_apply_divergence_branching pushOps 3 h2w h2w1 false [2] r2w1
    (by unfold WFcur; decide) (by intro l hl; exact Option.noConfusion hl)
    (by decide) (by decide) (by decide) (by decide)

theorem recApplyPush_saved_none (r : Record C R) (c1 : C) (t1 : R)
    (hs : r.saved = none) : (recApplyPush r c1 t1).2.2.saved = none := by
  unfold recApplyPush
  simp only [hs]
  split <;> simp [withDiff_saved]

theorem recApply_saved_none (ops : Ops C R E) (r : Record C R) (c : C)
    (m : Bool) (det : List C) (r1 : Record C R)
    (hok : recApply ops r c = .ok (m, det, r1)) (hs : r.saved = none) :
    r1.saved = none := by
  unfold recApply at hok
  split at hok
  · exact absurd hok (by simp)
  · split at hok
    · split at hok
      · injection hok with hp
        injection hp with hm h2
        injection h2 with hd hr1
        subst hr1
        simp [withDiff_saved, hs]
      · injection hok with hp
        injection hp with hm h2
        injection h2 with hd hr1
        subst hr1
        simp [withDiff_saved, hs]
      · injection hok with hp
        have h22 := congrArg (fun p => p.2.2) hp
        simp only [] at h22
        rw [← h22]
        exact recApplyPush_saved_none r _ _ hs
    · injection hok with hp
      have h22 := congrArg (fun p => p.2.2) hp
      simp only [] at h22
      rw [← h22]
      exact recApplyPush_saved_none r _ _ hs

theorem recUndo_saved (ops : Ops C R E) (r r1 : Record C R)
    (hok : recUndo ops r = some (.ok r1)) : r1.saved = r.saved := by
  unfold recUndo at hok
  split at hok
  · exact absurd hok (by simp)
  · split at hok
    · exact absurd hok (by simp)
    · split at hok
      · exact absurd hok (by simp)
      · injection hok with hp
        injection hp with hr1
        subst hr1
        simp [withDiff_saved]

theorem recRedo_saved (ops : Ops C R E) (r r1 : Record C R)
    (hok : recRedo ops r = some (.ok r1)) : r1.saved = r.saved := by
  unfold recRedo at hok
  split at hok
  · exact absurd hok (by simp)
  · split at hok
    · exact absurd hok (by simp)
    · injection hok with hp
      injection hp with hr1
      subst hr1
      simp [withDiff_saved]

theorem recUndoSteps_saved (ops : Ops C R E) :
    ∀ (n : Nat) (r : Record C R), (recUndoSteps ops n r).1.saved = r.saved := by
  intro n
  induction n with
  | zero => intro r; rfl
  | succ k ih =>
    intro r
    unfold recUndoSteps
    rcases hu : recUndo ops r with _ | ru
    · rfl
    · rcases ru with e | ru
      · rfl
      · rw [ih ru, recUndo_saved ops r ru hu]

theorem recRedoSteps_saved (ops : Ops C R E) :
    ∀ (n : Nat) (r : Record C R), (recRedoSteps ops n r).1.saved = r.saved := by
  intro n
  induction n with
  | zero => intro r; rfl
  | succ k ih =>
    intro r
    unfold recRedoSteps
    rcases hu : recRedo ops r with _ | ru
    · rfl
    · rcases ru with e | ru
      · rfl
      · rw [ih ru, recRedo_saved ops r ru hu]

theorem recGoTo_saved (ops : Ops C R E) (r : Record C R) (tc : Nat) :
    (recGoTo ops r tc).1.saved = r.saved := by
  unfold recGoTo
  split
  · rfl
  · split
    · exact recUndoSteps_saved ops _ r
    · exact recRedoSteps_saved ops _ r

theorem recSetLimit_saved_none (r : Record C R) (l : Nat)
    (hs : r.saved = none) : (recSetLimit r l).saved = none := by
  unfold recSetLimit
  simp [withDiff_saved, hs]

theorem savedExcl_swapSaved (o n cur : Nat) (h : History C R)
    (hx : SavedExcl h) : SavedExcl (swapSaved o n cur h) := by
  unfold swapSaved
  split
  · exact Or.inr rfl
  · split
    · exact Or.inl (emit_saved _ _)
    · exact hx

theorem savedExcl_savedArms (nw old cur : Nat) (f : Option Nat)
    (h : History C R) (hx : SavedExcl h) :
    SavedExcl (savedArms nw old cur f h) := by
  unfold savedArms
  split
  · exact savedExcl_swapSaved _ _ _ _ hx
  · exact savedExcl_swapSaved _ _ _ _ hx
  · exact savedExcl_swapSaved _ _ _ _ (Or.inr (by assumption))
  · exact hx
  · exact hx

theorem rmChildAux_record (h : History C R) :
    ∀ (fuel : Nat) (ws : List Nat), (rmChildAux h fuel ws).record = h.record := by
  intro fuel
  induction fuel generalizing h with
  | zero => intro ws; cases ws <;> rfl
  | succ k ih =>
    intro ws
    cases ws with
    | nil => rfl
    | cons p rest =>
      unfold rmChildAux
      rw [ih]

theorem rmChildAux_saved_none (h : History C R) (hs : h.saved = none) :
    ∀ (fuel : Nat) (ws : List Nat), (rmChildAux h fuel ws).saved = none := by
  intro fuel
  induction fuel generalizing h with
  | zero => intro ws; cases ws <;> simp [rmChildAux, hs]
  | succ k ih =>
    intro ws
    cases ws with
    | nil => exact hs
    | cons p rest =>
      unfold rmChildAux
      exact ih _ (by simp [hs, Option.filter]) _

theorem savedExcl_rmChild (h : History C R) (b cur : Nat)
    (hx : SavedExcl h) : SavedExcl (rmChild h b cur) := by
  rcases hx with hx | hx
  · exact Or.inl (by rw [rmChild, rmChildAux_record]; exact hx)
  · exact Or.inr (by rw [rmChild]; exact rmChildAux_saved_none h hx _ _)

theorem savedExcl_branches (h : History C R) (bs : List (Nat × Branch C))
    (hx : SavedExcl h) : SavedExcl { h with branches := bs } := hx

theorem savedExcl_emitRecord (h : History C R) (sigs : List Signal)
    (hx : SavedExcl h) :
    SavedExcl { h with record := emit h.record sigs } := by
  rcases hx with hx | hx
  · exact Or.inl (by rw [emit_saved]; exact hx)
  · exact Or.inr hx

theorem savedExcl_setRoot (h : History C R) (root cur : Nat)
    (hx : SavedExcl h) : SavedExcl (setRoot h root cur) := hx

theorem savedExcl_historyApply (ops : Ops C R E) (c : C) (h h' : History C R)
    (hx : SavedExcl h) (hres : historyApply ops c h = .ok h') :
    SavedExcl h' := by
  rcases hra : recApply ops h.record c with e | trip
  · unfold historyApply at hres
    rw [hra] at hres
    exact absurd hres (by simp)
  · obtain ⟨m, det, r1⟩ := trip
    unfold historyApply at hres
    rw [hra] at hres
    have hA : SavedExcl { h with record := r1 } := by
      rcases hx with hx | hx
      · exact Or.inl (recApply_saved_none ops h.record c m det r1 hra hx)
      · exact Or.inr hx
    simp only [] at hres
    by_cases hcond : (!m && r1.current == h.record.current) = true
    · rw [if_pos hcond] at hres
      by_cases hd : det.isEmpty = true
      · rw [if_pos hd] at hres
        injection hres with hres1
        subst hres1
        exact savedExcl_rmChild { h with record := r1 } h.root 0 hA
      · rw [if_neg hd] at hres
        injection hres with hres1
        subst hres1
        apply savedExcl_emitRecord
        apply savedExcl_savedArms
        apply savedExcl_setRoot
        exact savedExcl_rmChild { h with record := r1 } h.root 0 hA
    · rw [if_neg hcond] at hres
      by_cases hd : det.isEmpty = true
      · rw [if_pos hd] at hres
        injection hres with hres1
        subst hres1
        exact hA
      · rw [if_neg hd] at hres
        injection hres with hres1
        subst hres1
        apply savedExcl_emitRecord
        apply savedExcl_savedArms
        apply savedExcl_setRoot
        exact hA

theorem savedExcl_applyGoEntries (ops : Ops C R E) (nw old : Nat) :
    ∀ (es : List C) (h : History C R), SavedExcl h →
      SavedExcl (applyGoEntries ops nw old es h).1 := by
  intro es
  induction es with
  | nil => intro h hx; exact hx
  | cons e rest ih =>
    intro h hx
    unfold applyGoEntries
    rcases hra : recApply ops h.record e with err | trip
    · exact hx
    · obtain ⟨m, det, r1⟩ := trip
      simp only []
      apply ih
      have hA : SavedExcl { h with record := r1 } := by
        rcases hx with hx | hx
        · exact Or.inl (recApply_saved_none ops h.record e m det r1 hra hx)
        · exact Or.inr hx
      by_cases hd : det.isEmpty = true
      · rw [if_pos hd]
        exact hA
      · rw [if_neg hd]
        apply savedExcl_savedArms
        apply savedExcl_setRoot
        exact hA

theorem mkPath_parts (h : History C R) (b : Nat) (h1 : History C R)
    (path : List (Nat × Branch C)) (hmk : mkPath h b = some (h1, path)) :
    ∃ bs, h1 = { h with branches := bs } := by
  rcases hl : bLookup h.branches b with _ | dest
  · simp only [mkPath, hl] at hmk
    exact Option.noConfusion hmk
  · simp only [mkPath, hl] at hmk
    rcases haux : mkPathAux h.root h.branches.length
        (bRemove b h.branches) dest.parent.branch [(b, dest)] with _ | q
    · simp only [haux] at hmk
      exact Option.noConfusion hmk
    · obtain ⟨bs, path1⟩ := q
      simp only [haux, Option.some.injEq, Prod.mk.injEq] at hmk
      exact ⟨bs, hmk.1.symm⟩

theorem savedExcl_goHops (ops : Ops C R E) :
    ∀ (path : List (Nat × Branch C)) (h : History C R), SavedExcl h →
      SavedExcl (goHops ops path h).1 := by
  intro path
  induction path with
  | nil => intro h hx; exact hx
  | cons hop rest ih =>
    intro h hx
    obtain ⟨nw, br⟩ := hop
    rcases hg : recGoTo ops h.record br.parent.current with ⟨r1, res⟩
    have hgx : SavedExcl { h with record := r1 } := by
      rcases hx with hx | hx
      · refine Or.inl ?_
        have hsv := recGoTo_saved ops h.record br.parent.current
        rw [hg] at hsv
        exact hsv.trans hx
      · exact Or.inr hx
    rcases res with _ | res
    · simp only [goHops, hg]
      exact hgx
    · rcases res with e | u
      · simp only [goHops, hg]
        exact hgx
      · rcases hae : applyGoEntries ops nw h.root br.commands
          { h with record := r1 } with ⟨h2, oe⟩
        have h2x : SavedExcl h2 := by
          have hthis := savedExcl_applyGoEntries ops nw h.root br.commands
            { h with record := r1 } hgx
          rw [hae] at hthis
          exact hthis
        rcases oe with _ | e
        · simp only [goHops, hg, hae]
          exact ih h2 h2x
        · simp only [goHops, hg, hae]
          exact h2x

theorem savedExcl_historyGoTo (ops : Ops C R E) (h : History C R)
    (b cur : Nat) (hx : SavedExcl h) :
    SavedExcl (historyGoTo ops h b cur).1 := by
  by_cases hb : b = h.root
  · simp only [historyGoTo, if_pos hb]
    rcases hx with hx | hx
    · exact Or.inl (by rw [recGoTo_saved]; exact hx)
    · exact Or.inr hx
  · rcases hmk : mkPath h b with _ | p
    · simp only [historyGoTo, if_neg hb, hmk]
      exact hx
    · obtain ⟨h1, path⟩ := p
      obtain ⟨bs, hbs⟩ := mkPath_parts h b h1 path hmk
      have h1x : SavedExcl h1 := by rw [hbs]; exact hx
      rcases hgh : goHops ops path h1 with ⟨h2, res⟩
      have h2x : SavedExcl h2 := by
        have hthis := savedExcl_goHops ops path h1 h1x
        rw [hgh] at hthis
        exact hthis
      rcases res with _ | res
      · simp only [historyGoTo, if_neg hb, hmk, hgh]
        exact h2x
      · rcases res with e | u
        · simp only [historyGoTo, if_neg hb, hmk, hgh]
          exact h2x
        · rcases hg2 : recGoTo ops h2.record cur with ⟨r2, res2⟩
          have h3x : SavedExcl { h2 with record := r2 } := by
            rcases h2x with h2x | h2x
            · refine Or.inl ?_
              have hsv := recGoTo_saved ops h2.record cur
              rw [hg2] at hsv
              exact hsv.trans h2x
            · exact Or.inr h2x
          rcases res2 with _ | res2
          · simp only [historyGoTo, if_neg hb, hmk, hgh, hg2]
            exact h3x
          · rcases res2 with e | u2
            · simp only [historyGoTo, if_neg hb, hmk, hgh, hg2]
              exact h3x
            · simp only [historyGoTo, if_neg hb, hmk, hgh, hg2]
              exact savedExcl_emitRecord _ _ h3x

theorem savedExcl_historyRevert (ops : Ops C R E) (h : History C R)
    (hx : SavedExcl h) : SavedExcl (historyRevert ops h).1 := by
  unfold historyRevert
  rcases hrs : h.record.saved with _ | s
  · rcases hhs : h.saved with _ | a
    · exact hx
    · exact savedExcl_historyGoTo ops h a.branch a.current hx
  · rcases hx with hx | hx
    · exact Or.inl (by rw [recGoTo_saved]; exact hx)
    · exact Or.inr hx

theorem foldl_rmChild_record (root : Nat) :
    ∀ (l : List Nat) (h : History C R),
      (l.foldl (fun g cur => rmChild g root cur) h).record = h.record := by
  intro l
  induction l with
  | nil => intro h; rfl
  | cons a rest ih =>
    intro h
    show (rest.foldl _ (rmChild h root a)).record = h.record
    rw [ih, rmChild, rmChildAux_record]

theorem foldl_rmChild_saved_none (root : Nat) :
    ∀ (l : List Nat) (h : History C R), h.saved = none →
      (l.foldl (fun g cur => rmChild g root cur) h).saved = none := by
  intro l
  induction l with
  | nil => intro h hs; exact hs
  | cons a rest ih =>
    intro h hs
    show (rest.foldl _ (rmChild h root a)).saved = none
    exact ih _ (by rw [rmChild]; exact rmChildAux_saved_none h hs _ _)

theorem savedExcl_historySetLimit (h : History C R) (l : Nat)
    (hx : SavedExcl h) : SavedExcl (historySetLimit h l) := by
  unfold historySetLimit
  rcases hx with hx | hx
  · exact Or.inl (by rw [foldl_rmChild_record]; exact recSetLimit_saved_none _ _ hx)
  · exact Or.inr (foldl_rmChild_saved_none _ _ _ hx)

/-- C4: in every state of a history reachable by public operations, at most
one of `record.saved` and `history.saved` is `Some`; the `(Some, Some)`
state never occurs. -/
theorem C4_saved_exclusive (ops : Ops C R E) (h : History C R)
    (hr : Reachable ops h) :
    h.record.saved = none ∨ h.saved = none := by
  induction hr with
  | init t sflag lim => exact Or.inr rfl
  | @step g g' hr hs ih =>
    cases hs with
    | applyOk c _ _ hres => exact savedExcl_historyApply ops c g g' ih hres
    | undoOk _ _ hres =>
      rcases hu : recUndo ops g.record with _ | ru
      · simp only [historyUndo, hu] at hres
        exact Option.noConfusion hres
      · rcases ru with e | r1
        · simp only [historyUndo, hu] at hres
          exact Except.noConfusion (Option.some.inj hres)
        · simp only [historyUndo, hu, Option.some.injEq, Except.ok.injEq] at hres
          subst hres
          rcases ih with ih | ih
          · exact Or.inl (by rw [recUndo_saved ops g.record r1 hu]; exact ih)
          · exact Or.inr ih
    | redoOk _ _ hres =>
      rcases hu : recRedo ops g.record with _ | ru
      · simp only [historyRedo, hu] at hres
        exact Option.noConfusion hres
      · rcases ru with e | r1
        · simp only [historyRedo, hu] at hres
          exact Except.noConfusion (Option.some.inj hres)
        · simp only [historyRedo, hu, Option.some.injEq, Except.ok.injEq] at hres
          subst hres
          rcases ih with ih | ih
          · exact Or.inl (by rw [recRedo_saved ops g.record r1 hu]; exact ih)
          · exact Or.inr ih
    | goTo b cur _ => exact savedExcl_historyGoTo ops g b cur ih
    | setSaved b _ => exact Or.inr rfl
    | clear _ => exact Or.inr rfl
    | revert _ => exact savedExcl_historyRevert ops g ih
    | setLimit l _ => exact savedExcl_historySetLimit g l ih
    | connect b _ => exact ih

/-- C4, witness: a concrete reachable state (fresh saved history after one
`set_saved(false)`) satisfies the exclusivity invariant. -/
theorem C4_saved_exclusive_witness :
    (historySetSaved (historyMk [] true none : History Nat (List Nat))
        false).record.saved = none ∨
      (historySetSaved (historyMk [] true none : History Nat (List Nat))
        false).saved = none :=
  C4_saved_exclusive pushOps _
    (Reachable.step (Reachable.init [] true none)
      (HStep.setSaved false (historyMk [] true none)))

/-- C7, amended: a command error during a cross-branch `go_to` aborts the
walk and is surfaced, and saved-marker exclusivity still holds in the
resulting state; but branches on the not-yet-walked part of the path are
discarded, so parent-reachability of stored branches can be lost (see the
counterexample). -/
theorem C7_goto_error_saved_exclusive (ops : Ops C R E) (h : History C R)
    (b cur : Nat) (e : E) (hx : SavedExcl h)
    (he : (historyGoTo ops h b cur).2 = some (.error e)) :
    SavedExcl (historyGoTo ops h b cur).1 :=
  savedExcl_historyGoTo ops h b cur hx

/-- C7, witness: the failing walk of the counterexample scenario still
satisfies saved-marker exclusivity afterwards. -/
theorem C7_goto_error_saved_exclusive_witness :
    SavedExcl (historyGoTo bombOps h7pre 0 3).1 :=
  C7_goto_error_saved_exclusive bombOps h7pre 0 3 1 (Or.inl rfl) (by decide)

theorem take_set (a : α) :
    ∀ (l : List α) (i j : Nat), j ≤ i → (l.set i a).take j = l.take j := by
  intro l
  induction l with
  | nil => intro i j hj; rfl
  | cons x xs ih =>
    intro i j hj
    cases i with
    | zero =>
      have : j = 0 := Nat.le_zero.mp hj
      subst this
      rfl
    | succ k =>
      cases j with
      | zero => rfl
      | succ j1 =>
        show x :: (xs.set k a).take j1 = x :: xs.take j1
        rw [ih k j1 (Nat.le_of_succ_le_succ hj)]

theorem reverse_drop_one (xs : List α) :
    (xs.drop 1).reverse = xs.reverse.take (xs.length - 1) := by
  cases xs with
  | nil => rfl
  | cons x l =>
    rw [List.reverse_cons, List.length_cons, Nat.add_sub_cancel]
    show l.reverse = (l.reverse ++ [x]).take l.length
    rw [List.take_append_eq_append_take]
    simp

theorem take_append_take (s l : List α) (n m : Nat) (hn : n ≤ s.length + m) :
    (s ++ l.take m).take n = (s ++ l).take n := by
  rw [List.take_append_eq_append_take, List.take_append_eq_append_take,
    List.take_take]
  have : min (n - s.length) m = n - s.length :=
    Nat.min_eq_left (by omega)
  rw [this]

theorem stackOf_length (r : Record C R) (hwf : WFcur r) :
    (stackOf r).length = r.current := by
  simp [stackOf, List.length_take]
  exact hwf

theorem chainUndo_append_exact (ops : Ops C R E) :
    ∀ (s1 s2 : List C) (t : R),
      chainUndo ops s1.length (s1 ++ s2) t = chainUndo ops s1.length s1 t := by
  intro s1
  induction s1 with
  | nil => intro s2 t; rfl
  | cons c s ih =>
    intro s2 t
    show chainUndo ops (s.length + 1) (c :: (s ++ s2)) t =
      chainUndo ops (s.length + 1) (c :: s) t
    simp only [chainUndo]
    rcases ops.undoC c t with e | p
    · rfl
    · exact ih s2 p.2

theorem chainUndo_le (ops : Ops C R E) :
    ∀ (n : Nat) (s : List C) (t t2 : R),
      chainUndo ops n s t = some t2 → n ≤ s.length := by
  intro n
  induction n with
  | zero => intro s t t2 hc; exact Nat.zero_le _
  | succ k ih =>
    intro s t t2 hc
    cases s with
    | nil => exact absurd hc (by simp [chainUndo])
    | cons c s1 =>
      simp only [chainUndo] at hc
      rcases hu : ops.undoC c t with e | p
      · simp only [hu] at hc
        exact Option.noConfusion hc
      · simp only [hu] at hc
        exact Nat.succ_le_succ (ih s1 p.2 t2 hc)

theorem chainUndo_snoc (ops : Ops C R E) :
    ∀ (n : Nat) (s : List C) (c : C) (t : R), s.length = n →
      chainUndo ops (n + 1) (s ++ [c]) t =
        (chainUndo ops n s t).bind (fun t1 =>
          match ops.undoC c t1 with
          | .ok p => some p.2
          | .error _ => none) := by
  intro n
  induction n with
  | zero =>
    intro s c t hs
    rw [List.length_eq_zero.mp hs]
    show chainUndo ops 1 [c] t =
      (match ops.undoC c t with
        | .ok p => some p.2
        | .error _ => none)
    simp only [chainUndo]
  | succ k ih =>
    intro s c t hs
    cases s with
    | nil => exact absurd hs (by simp)
    | cons d s1 =>
      have hs1 : s1.length = k := by simpa using hs
      subst hs1
      show chainUndo ops (s1.length + 1 + 1) (d :: (s1 ++ [c])) t =
        (chainUndo ops (s1.length + 1) (d :: s1) t).bind (fun t1 =>
          match ops.undoC c t1 with
          | .ok p => some p.2
          | .error _ => none)
      simp only [chainUndo]
      rcases ops.undoC d t with e | p
      · rfl
      · exact ih s1 c p.2 rfl

theorem stackOf_withDiff (r r1 : Record C R) :
    stackOf (withDiff r r1) = stackOf r1 := by
  simp [stackOf, withDiff_entries, withDiff_current]

theorem recApplyPush_nomerge_char (r : Record C R) (c1 : C) (t1 : R)
    (m : Bool) (det : List C) (r1 : Record C R) (hwf : WFcur r)
    (heq : recApplyPush r c1 t1 = (m, det, r1)) :
    r1.target = t1 ∧ stackOf r1 = (c1 :: stackOf r).take r1.current ∧
    r1.current ≤ r.current + 1 ∧ WFcur r1 := by
  have hkeep : (r.entries.take r.current).length = r.current := by
    rw [List.length_take]
    exact Nat.min_eq_left hwf
  have hstk : (stackOf r).length = r.current := stackOf_length r hwf
  simp only [recApplyPush] at heq
  injection heq with hm h2
  injection h2 with hd hr1
  subst hr1
  cases hEv : (match r.limit with
      | some l => decide (l < (r.entries.take r.current ++ [c1]).length)
      | none => false) with
  | false =>
    rw [hEv] at *
    simp only [Bool.false_eq_true, if_false]
    refine ⟨withDiff_target _ _, ?_, ?_, ?_⟩
    · rw [stackOf_withDiff, withDiff_current]
      show ((r.entries.take r.current ++ [c1]).take (r.current + 1)).reverse =
        (c1 :: stackOf r).take (r.current + 1)
      rw [@List.take_of_length_le _ (r.current + 1)
          (r.entries.take r.current ++ [c1]) (by simp [hkeep]),
        @List.take_of_length_le _ (r.current + 1) (c1 :: stackOf r)
          (by simp [hstk]),
        List.reverse_append]
      simp [stackOf]
    · rw [withDiff_current]
    · show (withDiff _ _).current ≤ (withDiff _ _).entries.length
      rw [withDiff_current, withDiff_entries]
      show r.current + 1 ≤ (r.entries.take r.current ++ [c1]).length
      simp [hkeep]
  | true =>
    rw [hEv] at *
    simp only [if_true]
    have hlen1 : ((r.entries.take r.current ++ [c1]).drop 1).length =
        r.current := by
      rw [List.length_drop]
      simp [hkeep]
    refine ⟨withDiff_target _ _, ?_, ?_, ?_⟩
    · rw [stackOf_withDiff, withDiff_current]
      show (((r.entries.take r.current ++ [c1]).drop 1).take r.current).reverse
        = (c1 :: stackOf r).take r.current
      rw [@List.take_of_length_le _ r.current
          ((r.entries.take r.current ++ [c1]).drop 1) (le_of_eq hlen1),
        reverse_drop_one, List.reverse_append]
      have hL : (r.entries.take r.current ++ [c1]).length - 1 = r.current := by
        simp [hkeep]
      rw [hL]
      congr 1
    · rw [withDiff_current]
      show r.current ≤ r.current + 1
      exact Nat.le_succ _
    · show (withDiff _ _).current ≤ (withDiff _ _).entries.length
      rw [withDiff_current, withDiff_entries]
      show r.current ≤ ((r.entries.take r.current ++ [c1]).drop 1).length
      exact le_of_eq hlen1.symm

theorem recApply_nomerge_char (ops : Ops C R E) (hnm : NeverMerges ops)
    (r : Record C R) (c : C) (m : Bool) (det : List C) (r1 : Record C R)
    (hwf : WFcur r) (hok : recApply ops r c = .ok (m, det, r1)) :
    ∃ c1, ops.applyC c r.target = .ok (c1, r1.target) ∧
      stackOf r1 = (c1 :: stackOf r).take r1.current ∧
      r1.current ≤ r.current + 1 ∧ WFcur r1 := by
  rcases happ : ops.applyC c r.target with e | p
  · simp only [recApply, happ] at hok
    exact Except.noConfusion hok
  · obtain ⟨c1, t1⟩ := p
    simp only [recApply, happ] at hok
    rcases hprev : (if r.current = r.entries.length then r.entries.getLast?
        else none) with _ | prev
    · simp only [hprev] at hok
      injection hok with hp
      obtain ⟨ht, hs, hc, hw⟩ :=
        recApplyPush_nomerge_char r c1 t1 m det r1 hwf hp
      exact ⟨c1, by rw [ht], hs, hc, hw⟩
    · simp only [hprev, hnm prev c1] at hok
      injection hok with hp
      obtain ⟨ht, hs, hc, hw⟩ :=
        recApplyPush_nomerge_char r c1 t1 m det r1 hwf hp
      exact ⟨c1, by rw [ht], hs, hc, hw⟩

theorem applyListR_char (ops : Ops C R E) (hnm : NeverMerges ops)
    (hinv : InverseOps ops) :
    ∀ (cs : List C) (r r1 : Record C R), WFcur r →
      applyListR ops cs r = .ok r1 →
      ∃ posts : List C, posts.length = cs.length ∧
        stackOf r1 = (posts ++ stackOf r).take r1.current ∧
        r1.current ≤ cs.length + r.current ∧ WFcur r1 ∧
        chainUndo ops cs.length posts r1.target = some r.target := by
  intro cs
  induction cs with
  | nil =>
    intro r r1 hwf hres
    injection hres with hres1
    subst hres1
    refine ⟨[], rfl, ?_, by simp, hwf, rfl⟩
    show stackOf r = ([] ++ stackOf r).take r.current
    rw [List.nil_append,
      List.take_of_length_le (le_of_eq (stackOf_length r hwf))]
  | cons c cs ih =>
    intro r r1 hwf hres
    rcases hra : recApply ops r c with e | trip
    · simp only [applyListR, hra] at hres
      exact Except.noConfusion hres
    · obtain ⟨m, det, ra⟩ := trip
      simp only [applyListR, hra] at hres
      obtain ⟨c1, happ, hsa, hca, hwa⟩ :=
        recApply_nomerge_char ops hnm r c m det ra hwf hra
      obtain ⟨posts1, hlen1, hs1, hc1, hw1, hch1⟩ := ih ra r1 hwa hres
      refine ⟨posts1 ++ [c1], by simp [hlen1], ?_, ?_, hw1, ?_⟩
      · rw [hs1, hsa, List.append_assoc]
        exact take_append_take posts1 (c1 :: stackOf r) r1.current ra.current
          (by omega)
      · simp only [List.length_cons]
        omega
      · show chainUndo ops (cs.length + 1) (posts1 ++ [c1]) r1.target =
          some r.target
        rw [chainUndo_snoc ops cs.length posts1 c1 r1.target hlen1, hch1]
        show (match ops.undoC c1 ra.target with
          | .ok p => some p.2
          | .error _ => none) = some r.target
        obtain ⟨c2, hundo⟩ := hinv c r.target c1 ra.target happ
        rw [hundo]

theorem recUndo_char (ops : Ops C R E) (r r1 : Record C R) (hwf : WFcur r)
    (hok : recUndo ops r = some (.ok r1)) :
    ∃ c s, stackOf r = c :: s ∧
      (∃ c2, ops.undoC c r.target = .ok (c2, r1.target)) ∧
      stackOf r1 = s ∧ WFcur r1 := by
  unfold recUndo at hok
  by_cases hc0 : r.current = 0
  · rw [if_pos hc0] at hok
    exact Option.noConfusion hok
  · rw [if_neg hc0] at hok
    rcases hg : r.entries[r.current - 1]? with _ | e
    · rw [hg] at hok
      exact Option.noConfusion hok
    · rw [hg] at hok
      rcases hu : ops.undoC e r.target with err | p
      · simp [hu] at hok
      · obtain ⟨c2, t2⟩ := p
        simp only [hu, Option.some.injEq, Except.ok.injEq] at hok
        subst hok
        obtain ⟨k, hk⟩ : ∃ k, r.current = k + 1 :=
          ⟨r.current - 1, (Nat.succ_pred_eq_of_pos (Nat.pos_of_ne_zero hc0)).symm⟩
        have hk1 : r.current - 1 = k := by omega
        refine ⟨e, (r.entries.take k).reverse, ?_, ⟨c2, ?_⟩, ?_, ?_⟩
        · show (r.entries.take r.current).reverse = _
          rw [hk, List.take_succ]
          rw [hk1] at hg
          rw [hg]
          simp
        · rw [withDiff_target]
          exact hu
        · rw [stackOf_withDiff]
          show ((r.entries.set (r.current - 1) c2).take (r.current - 1)).reverse
            = _
          rw [take_set c2 r.entries (r.current - 1) (r.current - 1)
            (Nat.le_refl _), hk1]
        · show (withDiff _ _).current ≤ (withDiff _ _).entries.length
          rw [withDiff_current, withDiff_entries]
          show r.current - 1 ≤ (r.entries.set (r.current - 1) c2).length
          rw [List.length_set]
          have hwf2 : r.current ≤ r.entries.length := hwf
          omega

theorem undoOkR_chain (ops : Ops C R E) :
    ∀ (n : Nat) (r r2 : Record C R), WFcur r → undoOkR ops n r = some r2 →
      chainUndo ops n (stackOf r) r.target = some r2.target := by
  intro n
  induction n with
  | zero =>
    intro r r2 hwf hres
    injection hres with hres1
    subst hres1
    rfl
  | succ k ih =>
    intro r r2 hwf hres
    rcases hu : recUndo ops r with _ | ru
    · simp only [undoOkR, hu] at hres
      exact Option.noConfusion hres
    · rcases ru with e | ra
      · simp only [undoOkR, hu] at hres
        exact Option.noConfusion hres
      · simp only [undoOkR, hu] at hres
        obtain ⟨c, s, hstack, ⟨c2, hundo⟩, hsa, hwa⟩ :=
          recUndo_char ops r ra hwf hu
        rw [hstack]
        show (match ops.undoC c r.target with
          | .ok p => chainUndo ops k s p.2
          | .error _ => none) = some r2.target
        rw [hundo]
        show chainUndo ops k s ra.target = some r2.target
        rw [← hsa]
        exact ih ra r2 hwa hres

theorem chain_assembly (ops : Ops C R E) (n : Nat) (posts s0 : List C)
    (cur : Nat) (tEnd t0 tFin : R) (hlen : posts.length = n)
    (hchainA : chainUndo ops n posts tEnd = some t0)
    (hchainU : chainUndo ops n ((posts ++ s0).take cur) tEnd = some tFin) :
    tFin = t0 := by
  subst hlen
  have hle : posts.length ≤ ((posts ++ s0).take cur).length :=
    chainUndo_le ops posts.length _ tEnd tFin hchainU
  have hcur : posts.length ≤ cur :=
    hle.trans (by rw [List.length_take]; exact Nat.min_le_left _ _)
  rw [List.take_append_eq_append_take, List.take_of_length_le hcur,
    chainUndo_append_exact ops posts _ tEnd, hchainA] at hchainU
  exact (Option.some.inj hchainU).symm

theorem recCore_emit (r : Record C R) (sigs : List Signal) :
    recCore (emit r sigs) = recCore r := by
  simp [recCore, emit_entries, emit_current, emit_target]

theorem recCore_swapSaved (o n cur : Nat) (h : History C R) :
    recCore (swapSaved o n cur h).record = recCore h.record := by
  unfold swapSaved
  split
  · simp [recCore, emit_entries, emit_current, emit_target]
  · split
    · simp [recCore, emit_entries, emit_current, emit_target]
    · rfl

theorem recCore_savedArms (nw old cur : Nat) (f : Option Nat)
    (h : History C R) :
    recCore (savedArms nw old cur f h).record = recCore h.record := by
  unfold savedArms
  split
  · rw [recCore_swapSaved]
  · rw [recCore_swapSaved]
  · rw [recCore_swapSaved]
    rfl
  · rfl
  · rfl

theorem recCore_rmChild (h : History C R) (b cur : Nat) :
    recCore (rmChild h b cur).record = recCore h.record := by
  rw [rmChild, rmChildAux_record]

theorem stackOf_of_recCore (a b : Record C R) (hc : recCore a = recCore b) :
    stackOf a = stackOf b ∧ a.current = b.current ∧ a.target = b.target ∧
      a.entries = b.entries := by
  have h1 := congrArg (fun p => p.1) hc
  have h2 := congrArg (fun p => p.2.1) hc
  have h3 := congrArg (fun p => p.2.2) hc
  simp only [recCore] at h1 h2 h3
  exact ⟨by rw [stackOf, stackOf, h1, h2], h2, h3, h1⟩

theorem historyApply_recCore (ops : Ops C R E) (c : C) (h h' : History C R)
    (hres : historyApply ops c h = .ok h') :
    ∃ m det r1, recApply ops h.record c = .ok (m, det, r1) ∧
      recCore h'.record = recCore r1 := by
  rcases hra : recApply ops h.record c with e | trip
  · unfold historyApply at hres
    rw [hra] at hres
    exact absurd hres (by simp)
  · obtain ⟨m, det, r1⟩ := trip
    refine ⟨m, det, r1, rfl, ?_⟩
    unfold historyApply at hres
    rw [hra] at hres
    simp only [] at hres
    by_cases hcond : (!m && r1.current == h.record.current) = true
    · rw [if_pos hcond] at hres
      by_cases hd : det.isEmpty = true
      · rw [if_pos hd] at hres
        injection hres with h1
        subst h1
        show recCore (rmChild { h with record := r1 } h.root 0).record =
          recCore r1
        rw [recCore_rmChild]
      · rw [if_neg hd] at hres
        injection hres with h1
        subst h1
        rw [recCore_emit, recCore_savedArms]
        show recCore (rmChild { h with record := r1 } h.root 0).record =
          recCore r1
        rw [recCore_rmChild]
    · rw [if_neg hcond] at hres
      by_cases hd : det.isEmpty = true
      · rw [if_pos hd] at hres
        injection hres with h1
        subst h1
        rfl
      · rw [if_neg hd] at hres
        injection hres with h1
        subst h1
        rw [recCore_emit, recCore_savedArms]
        rfl

theorem applyListH_char (ops : Ops C R E) (hnm : NeverMerges ops)
    (hinv : InverseOps ops) :
    ∀ (cs : List C) (h h1 : History C R), WFcur h.record →
      applyListH ops cs h = .ok h1 →
      ∃ posts : List C, posts.length = cs.length ∧
        stackOf h1.record =
          (posts ++ stackOf h.record).take h1.record.current ∧
        h1.record.current ≤ cs.length + h.record.current ∧
        WFcur h1.record ∧
        chainUndo ops cs.length posts h1.record.target =
          some h.record.target := by
  intro cs
  induction cs with
  | nil =>
    intro h h1 hwf hres
    injection hres with hres1
    subst hres1
    refine ⟨[], rfl, ?_, by simp, hwf, rfl⟩
    show stackOf h.record = ([] ++ stackOf h.record).take h.record.current
    rw [List.nil_append,
      List.take_of_length_le (le_of_eq (stackOf_length h.record hwf))]
  | cons c cs ih =>
    intro h h1 hwf hres
    rcases hha : historyApply ops c h with e | ha
    · simp only [applyListH, hha] at hres
      exact Except.noConfusion hres
    · simp only [applyListH, hha] at hres
      obtain ⟨m, det, r1, hra, hcore⟩ := historyApply_recCore ops c h ha hha
      obtain ⟨hs0, hc0, ht0, he0⟩ := stackOf_of_recCore ha.record r1 hcore
      obtain ⟨c1, happ, hsa, hca, hwa⟩ :=
        recApply_nomerge_char ops hnm h.record c m det r1 hwf hra
      have hwah : WFcur ha.record := by
        show ha.record.current ≤ ha.record.entries.length
        rw [hc0, he0]
        exact hwa
      obtain ⟨posts1, hlen1, hs1, hc1, hw1, hch1⟩ := ih ha h1 hwah hres
      refine ⟨posts1 ++ [c1], by simp [hlen1], ?_, ?_, hw1, ?_⟩
      · rw [hs1, hs0, hsa, List.append_assoc]
        refine take_append_take posts1 (c1 :: stackOf h.record)
          h1.record.current r1.current ?_
        rw [← hc0]
        omega
      · simp only [List.length_cons]
        rw [hc0] at hc1
        omega
      · show chainUndo ops (cs.length + 1) (posts1 ++ [c1]) h1.record.target =
          some h.record.target
        rw [chainUndo_snoc ops cs.length posts1 c1 h1.record.target hlen1,
          hch1, ht0]
        show (match ops.undoC c1 r1.target with
          | .ok p => some p.2
          | .error _ => none) = some h.record.target
        obtain ⟨c2, hundo⟩ := hinv c h.record.target c1 r1.target happ
        rw [hundo]

theorem undoOkH_rec (ops : Ops C R E) :
    ∀ (n : Nat) (h : History C R) (h2 : History C R),
      undoOkH ops n h = some h2 → undoOkR ops n h.record = some h2.record := by
  intro n
  induction n with
  | zero =>
    intro h h2 hres
    injection hres with hres1
    subst hres1
    rfl
  | succ k ih =>
    intro h h2 hres
    rcases hu : recUndo ops h.record with _ | ru
    · simp only [undoOkH, historyUndo, hu] at hres
      exact Option.noConfusion hres
    · rcases ru with e | r1
      · simp only [undoOkH, historyUndo, hu] at hres
        exact Option.noConfusion hres
      · simp only [undoOkH, historyUndo, hu] at hres
        simp only [undoOkR, hu]
        exact ih { h with record := r1 } h2 hres

/-- C1, amended: for every command type whose undo restores the pre-apply
target and that never merges, a run of `n` successful applies followed by
`n` successful undos returns the target to its value before the first
apply, both on a Record and on a History. -/
theorem C1_apply_undo_roundtrip_no_merge (ops : Ops C R E)
    (hinv : InverseOps ops) (hnm : NeverMerges ops) :
    (∀ (cs : List C) (r r1 r2 : Record C R), WFcur r →
        applyListR ops cs r = .ok r1 →
        undoOkR ops cs.length r1 = some r2 → r2.target = r.target) ∧
    (∀ (cs : List C) (h h1 h2 : History C R), WFcur h.record →
        applyListH ops cs h = .ok h1 →
        undoOkH ops cs.length h1 = some h2 →
        h2.record.target = h.record.target) := by
  constructor
  · intro cs r r1 r2 hwf ha hu
    obtain ⟨posts, hlen, hstack, hcur, hwf1, hchain⟩ :=
      applyListR_char ops hnm hinv cs r r1 hwf ha
    have hchainU := undoOkR_chain ops cs.length r1 r2 hwf1 hu
    rw [hstack] at hchainU
    exact chain_assembly ops cs.length posts (stackOf r) r1.current r1.target
      r.target r2.target hlen hchain hchainU
  · intro cs h h1 h2 hwf ha hu
    obtain ⟨posts, hlen, hstack, hcur, hwf1, hchain⟩ :=
      applyListH_char ops hnm hinv cs h h1 hwf ha
    have hchainU := undoOkR_chain ops cs.length h1.record h2.record hwf1
      (undoOkH_rec ops cs.length h1 h2 hu)
    rw [hstack] at hchainU
    exact chain_assembly ops cs.length posts (stackOf h.record)
      h1.record.current h1.record.target h.record.target h2.record.target
      hlen hchain hchainU

theorem pushOps_inverse : InverseOps pushOps := by
  intro c t c1 t1 happ
  injection happ with hp
  injection hp with h1 h2
  subst h1
  subst h2
  exact ⟨c, rfl⟩

theorem pushOps_nomerge : NeverMerges pushOps := fun _ _ => rfl

/-- C1, witness: applying `[4, 5]` to a fresh record and to a fresh history
and then undoing twice restores the empty target. -/
theorem C1_apply_undo_roundtrip_no_merge_witness :
    (⟨[4, 5], 0, none, none, false, [], []⟩ : Record Nat (List Nat)).target =
        (recordMk [] false none : Record Nat (List Nat)).target ∧
      (⟨0, 1, none, ⟨[4, 5], 0, none, none, false, [], []⟩, []⟩ :
          History Nat (List Nat)).record.target =
        (historyMk [] false none : History Nat (List Nat)).record.target :=
  ⟨(C1_apply_undo_roundtrip_no_merge pushOps pushOps_inverse
      pushOps_nomerge).1 [4, 5] (recordMk [] false none)
      ⟨[4, 5], 2, none, none, false, [], [5, 4]⟩
      ⟨[4, 5], 0, none, none, false, [], []⟩
      (by unfold WFcur; decide) (by decide) (by decide),
    (C1_apply_undo_roundtrip_no_merge pushOps pushOps_inverse
      pushOps_nomerge).2 [4, 5] (historyMk [] false none)
      ⟨0, 1, none, ⟨[4, 5], 2, none, none, false, [], [5, 4]⟩, []⟩
      ⟨0, 1, none, ⟨[4, 5], 0, none, none, false, [], []⟩, []⟩
      (by unfold WFcur; decide) (by decide) (by decide)⟩

end Redo
